import Mathlib

/-!
# RP2350 Foxoring Transmitter — verification of the core algorithms

Shallow embedding, in Lean 4, of the algorithmic core of the
RP2350-Foxoring-Transmitter repository:

* `rational_approximation` (Code/farey.cpp): the fast Farey/Stern–Brocot
  rational approximation of a target in `[0,1]` with a bounded denominator;
* `synth::calculate_buffers` (synth.cpp): the frequency-to-buffer-length
  mapping and its post-approximation scaling step;
* `dma_irq_handler` (synth.cpp): the interrupt-driven playback scheduler
  that selects among the steady / ramp-up / ramp-down / silent buffers;
* the sigma-delta quantizers `fill_synth_buffer_sigma_delta`,
  `fill_synth_buffer_sigma_delta_3s` and `fill_synth_buffer_compare`;
* the parameter setters of the `synth` class and `synth::apply_settings`.

Modelling conventions:

* C `double` arithmetic is modelled exactly over `ℚ`.  Every arithmetic
  expression is transcribed term by term from the source; the only
  idealisation is that `ℚ` arithmetic is exact where `double` rounds.
* C unsigned integers are modelled as `ℕ`.  The source's `maxdenom` and
  the Farey loop variables have type `uint32_t`; the lemma
  `farey_no_uint32_overflow` shows that from any invariant state every
  value the loop computes in `uint32_t` is at most `11 * maxdenom`, so the
  `ℕ` embedding computes exactly the machine's values whenever
  `11 * maxdenom < 2^32`, i.e. `maxdenom ≤ 390451572`.  The optimality
  theorem takes that hypothesis explicitly (the program's own call site
  passes `maxdenom ≤ 15000`); for larger `maxdenom` the step count `N`
  can exceed `2^32` and the source's `(uint32_t)floor(N)` conversion is
  undefined behaviour, so no theorem is stated there.
* The quantizer loops consume `sin`/`rand()` values; these enter the
  embedding as explicit input streams of rationals, so every theorem about
  the quantizers holds for arbitrary input streams.
-/

/-! ## The rational approximation algorithm (Code/farey.cpp)

`rational_t` mirrors the struct from farey.h: numerator, denominator and
the number of iterations the Farey loop performed.  (The C code leaves
`iterations` unset on the early out-of-range returns; the model uses 0
there.)
-/

structure rational_t where
  numerator : ℕ
  denominator : ℕ
  iterations : ℕ
deriving Repr, DecidableEq

/-- The exit path of the Farey loop: of the two bounding fractions
`a/b ≤ target ≤ c/d`, select the one closer to `target`
(`if(target - a/(double)b < c/(double)d - target)` in the source). -/
def fareySelect (target : ℚ) (a b c d ii : ℕ) : rational_t :=
  if target - (a : ℚ) / (b : ℚ) < (c : ℚ) / (d : ℚ) - target then
    ⟨a, b, ii⟩
  else
    ⟨c, d, ii⟩

/-- The number of mediant steps taken at once by one Farey iteration.
This models the source sequence
`Nint = floor(N); if(Nint < 1) Nint = 1;`
`if(d + Nint*b > maxdenom) { N = (maxdenom - d)/(double)b; Nint = floor(N); }`
(`floor` on a `double` becomes `Int.floor` on `ℚ`, and `.toNat` models the
cast back to `uint32_t`; in the denominator-limiting branch
`floor((maxdenom - d)/(double)b)` of the unsigned difference `maxdenom - d`
is exactly natural division `(M - d) / b`).

The source computes `Nint`, `Nint*b` and `d + Nint*b` in `uint32_t`; the
model uses unbounded `ℕ`.  `farey_no_uint32_overflow` proves that on every
state the loop can reach these values are at most `11 * M`, so the model
agrees with the machine word for word whenever `11 * M < 2^32`
(`M ≤ 390451572`); the optimality theorem is stated under that hypothesis
because for larger `M` the conversion `(uint32_t)floor(N)` can receive a
value `≥ 2^32` (already on the first iteration, e.g. at
`target = 1/5000000000`, `maxdenom = 4294967295`, where `⌊N⌋ =
4999999999`), which is undefined behaviour in C. -/
def fareyNint (M d b : ℕ) (N : ℚ) : ℕ :=
  if d + (if (⌊N⌋).toNat < 1 then 1 else (⌊N⌋).toNat) * b > M then
    (M - d) / b
  else
    (if (⌊N⌋).toNat < 1 then 1 else (⌊N⌋).toNat)

/-- The main loop of `rational_approximation` (farey.cpp, the
`while(1)` loop).  `M` is the (already clamped) `maxdenom`.  The loop
state is the two bounding fractions `a/b` and `c/d` plus the iteration
counter `ii`; the source exits the loop as soon as `b + d > maxdenom` or
`ii > maxIter` with `maxIter = 100`.

The `fuel` argument only makes the recursion structural: the source's own
guard `ii > 100` exits before `fuel` (started at `102 = maxIter + 2` with
`ii = 0`) can reach 0, so the `fuel = 0` branch (which returns the same
selection the guard would) is never taken.

All loop variables are `uint32_t` in the source and `ℕ` here; see
`farey_no_uint32_overflow` for the proof that every intermediate stays at
most `11 * M` (hence below `2^32` for `M ≤ 390451572`, the domain on which
the embedding is claimed faithful and on which the optimality theorem is
stated). -/
def fareyLoop (target : ℚ) (M : ℕ) : ℕ → ℕ → ℕ → ℕ → ℕ → ℕ → rational_t
  | 0, a, b, c, d, ii => fareySelect target a b c d ii
  | fuel + 1, a, b, c, d, ii =>
    if b + d > M ∨ ii > 100 then
      -- The denominator has become too big, or too many iterations.
      fareySelect target a b c d ii
    else if target < ((a + c : ℕ) : ℚ) / ((b + d : ℕ) : ℚ) then
      -- Discard c/d as the mediant is closer to the target.
      -- N = (c - target*d)/(target*b - a), but need to check for division by zero
      if target * (b : ℚ) - (a : ℚ) < 1 / (10 * (M : ℚ)) then
        -- Division by zero, or close to it: a/b is a very good approximation.
        ⟨a, b, ii⟩
      else
        -- Fast forward to a good c/d.
        fareyLoop target M fuel a b
          (c + fareyNint M d b (((c : ℚ) - target * (d : ℚ)) / (target * (b : ℚ) - (a : ℚ))) * a)
          (d + fareyNint M d b (((c : ℚ) - target * (d : ℚ)) / (target * (b : ℚ) - (a : ℚ))) * b)
          (ii + 1)
    else
      -- Discard a/b as the mediant is closer to the target.
      -- N = (target*b - a)/(c - target*d), but need to check for division by zero
      if (c : ℚ) - target * (d : ℚ) < 1 / (10 * (M : ℚ)) then
        -- Division by zero, or close to it: c/d is a very good approximation.
        ⟨c, d, ii⟩
      else
        -- Fast forward to a good a/b.
        fareyLoop target M fuel
          (a + fareyNint M b d ((target * (b : ℚ) - (a : ℚ)) / ((c : ℚ) - target * (d : ℚ))) * c)
          (b + fareyNint M b d ((target * (b : ℚ) - (a : ℚ)) / ((c : ℚ) - target * (d : ℚ))) * d)
          c d (ii + 1)

/-- `rational_approximation` from farey.cpp: find the best rational
approximation to a number between 0 and 1 with denominator at most
`maxdenom`.  Out-of-range targets are clamped to the boundary fractions,
`maxdenom < 1` is treated as 1, then the Farey loop runs from the
interval `0/1 ≤ target ≤ 1/1`. -/
def rational_approximation (target : ℚ) (maxdenom : ℕ) : rational_t :=
  if target > 1 then ⟨1, 1, 0⟩
  else if target < 0 then ⟨0, 1, 0⟩
  else
    let M := if maxdenom < 1 then 1 else maxdenom
    fareyLoop target M 102 0 1 1 1 0

example : rational_approximation 0 3000 = ⟨0, 1, 0⟩ := by with_unfolding_all rfl
example : rational_approximation 1 3000 = ⟨1, 1, 0⟩ := by with_unfolding_all rfl
example : rational_approximation (1/2) 3000 = ⟨1, 2, 1⟩ := by with_unfolding_all rfl
example : rational_approximation (1/3001) 2500 = ⟨1, 2500, 1⟩ := by with_unfolding_all rfl
example : rational_approximation (1/3001) 1500 = ⟨0, 1, 1⟩ := by with_unfolding_all rfl
example : rational_approximation (1/3001) 3001 = ⟨1, 3001, 1⟩ := by with_unfolding_all rfl
example : rational_approximation (1/3001) 3000 = ⟨1, 3000, 1⟩ := by with_unfolding_all rfl
example : rational_approximation (1/2 + 1/3001) 3000 = ⟨751, 1501, 4⟩ := by with_unfolding_all rfl
example : rational_approximation (472757439/1000000000) 1816 = ⟨564, 1193, 7⟩ := by with_unfolding_all rfl
example : rational_approximation (472757439/1000000000) 1817 = ⟨859, 1817, 8⟩ := by with_unfolding_all rfl
example : rational_approximation (288/1000) 100000000 = ⟨36, 125, 4⟩ := by with_unfolding_all rfl

/-! ### Correctness of the Farey loop

`FareyInv` is the loop invariant of the source's `while(1)` loop: the
two fractions `a/b ≤ target ≤ c/d` are Farey neighbours
(`b*c - a*d = 1`) whose denominators never exceed the clamped
`maxdenom`; each numerator is bounded by its denominator (the loop starts
at `0/1 ≤ target ≤ 1/1` and mediants preserve this), which feeds the
`uint32_t` fidelity lemma `farey_no_uint32_overflow`. -/

def FareyInv (t : ℚ) (M a b c d : ℕ) : Prop :=
  1 ≤ b ∧ 1 ≤ d ∧ b ≤ M ∧ d ≤ M ∧
  (b : ℤ) * (c : ℤ) - (a : ℤ) * (d : ℤ) = 1 ∧
  (a : ℚ) / (b : ℚ) ≤ t ∧ t ≤ (c : ℚ) / (d : ℚ) ∧
  a ≤ b ∧ c ≤ d

/-- What claim C1 demands of a result: a denominator within bounds and a
distance to the target no larger than that of any fraction `p/q` with
`1 ≤ q ≤ M`. -/
def FareyOpt (t : ℚ) (M : ℕ) (r : rational_t) : Prop :=
  1 ≤ r.denominator ∧ r.denominator ≤ M ∧
  ∀ (p : ℤ) (q : ℕ), 1 ≤ q → q ≤ M →
    |t - (r.numerator : ℚ) / (r.denominator : ℚ)| ≤ |t - (p : ℚ) / (q : ℚ)|

/-- A fraction strictly between two Farey neighbours `a/b < p/q < c/d`
has denominator at least `b + d`. -/
lemma between_denom_le (a b c d : ℕ) (p : ℤ) (q : ℕ)
    (hb : 1 ≤ b) (hd : 1 ≤ d) (hq : 1 ≤ q)
    (huni : (b : ℤ) * (c : ℤ) - (a : ℤ) * (d : ℤ) = 1)
    (h1 : (a : ℚ) / (b : ℚ) < (p : ℚ) / (q : ℚ))
    (h2 : (p : ℚ) / (q : ℚ) < (c : ℚ) / (d : ℚ)) :
    b + d ≤ q := by
  have hbq : (0 : ℚ) < (b : ℚ) := by exact_mod_cast hb
  have hdq : (0 : ℚ) < (d : ℚ) := by exact_mod_cast hd
  have hqq : (0 : ℚ) < (q : ℚ) := by exact_mod_cast hq
  rw [div_lt_div_iff hbq hqq] at h1
  rw [div_lt_div_iff hqq hdq] at h2
  have h1' : (a : ℤ) * (q : ℤ) < (p : ℤ) * (b : ℤ) := by exact_mod_cast h1
  have h2' : (p : ℤ) * (d : ℤ) < (c : ℤ) * (q : ℤ) := by exact_mod_cast h2
  have e1 : 1 ≤ (p : ℤ) * (b : ℤ) - (a : ℤ) * (q : ℤ) := by omega
  have e2 : 1 ≤ (c : ℤ) * (q : ℤ) - (p : ℤ) * (d : ℤ) := by omega
  have key : (q : ℤ) = (b : ℤ) * ((c : ℤ) * (q : ℤ) - (p : ℤ) * (d : ℤ))
      + (d : ℤ) * ((p : ℤ) * (b : ℤ) - (a : ℤ) * (q : ℤ)) := by
    linear_combination (-(q : ℤ)) * huni
  have hbz : (1 : ℤ) ≤ (b : ℤ) := by exact_mod_cast hb
  have hdz : (1 : ℤ) ≤ (d : ℤ) := by exact_mod_cast hd
  have : (b : ℤ) + (d : ℤ) ≤ (q : ℤ) := by nlinarith
  exact_mod_cast this

/-- Optimality of the final selection when the next mediant denominator
would exceed the bound: with `a/b ≤ t ≤ c/d` Farey neighbours and
`M < b + d`, the closer of `a/b`, `c/d` beats every fraction with
denominator at most `M`. -/
lemma fareySelect_opt (t : ℚ) (M : ℕ) (a b c d ii : ℕ)
    (inv : FareyInv t M a b c d) (hbd : M < b + d) :
    FareyOpt t M (fareySelect t a b c d ii) := by
  obtain ⟨hb, hd, hbM, hdM, huni, hab, hcd, -, -⟩ := inv
  unfold fareySelect FareyOpt
  split_ifs with hsel
  · refine ⟨hb, hbM, ?_⟩
    intro p q hq hqM
    show |t - (a : ℚ) / (b : ℚ)| ≤ |t - (p : ℚ) / (q : ℚ)|
    have habs : |t - (a : ℚ) / (b : ℚ)| = t - (a : ℚ) / (b : ℚ) :=
      abs_of_nonneg (by linarith)
    rcases le_or_lt ((p : ℚ) / (q : ℚ)) ((a : ℚ) / (b : ℚ)) with hle | hgt
    · have habs2 : |t - (p : ℚ) / (q : ℚ)| = t - (p : ℚ) / (q : ℚ) :=
        abs_of_nonneg (by linarith)
      rw [habs, habs2]; linarith
    · rcases le_or_lt ((c : ℚ) / (d : ℚ)) ((p : ℚ) / (q : ℚ)) with hge | hlt2
      · have habs2 : |t - (p : ℚ) / (q : ℚ)| = (p : ℚ) / (q : ℚ) - t := by
          rw [abs_sub_comm]; exact abs_of_nonneg (by linarith)
        rw [habs, habs2]; linarith
      · have := between_denom_le a b c d p q hb hd (by exact_mod_cast hq) huni hgt hlt2
        omega
  · refine ⟨hd, hdM, ?_⟩
    intro p q hq hqM
    push_neg at hsel
    show |t - (c : ℚ) / (d : ℚ)| ≤ |t - (p : ℚ) / (q : ℚ)|
    have habs : |t - (c : ℚ) / (d : ℚ)| = (c : ℚ) / (d : ℚ) - t := by
      rw [abs_sub_comm]; exact abs_of_nonneg (by linarith)
    rcases le_or_lt ((p : ℚ) / (q : ℚ)) ((a : ℚ) / (b : ℚ)) with hle | hgt
    · have habs2 : |t - (p : ℚ) / (q : ℚ)| = t - (p : ℚ) / (q : ℚ) :=
        abs_of_nonneg (by linarith)
      rw [habs, habs2]; linarith
    · rcases le_or_lt ((c : ℚ) / (d : ℚ)) ((p : ℚ) / (q : ℚ)) with hge | hlt2
      · have habs2 : |t - (p : ℚ) / (q : ℚ)| = (p : ℚ) / (q : ℚ) - t := by
          rw [abs_sub_comm]; exact abs_of_nonneg (by linarith)
        rw [habs, habs2]; linarith
      · have := between_denom_le a b c d p q hb hd (by exact_mod_cast hq) huni hgt hlt2
        omega

/-- Optimality at the early exits (`Ndenom < Ndenom_min`): a fraction
`p0/q0` within `1/(10*maxdenom*q0)` of the target beats every fraction
with denominator at most `maxdenom`, because any other fraction value is
at least `1/(maxdenom*q0)` away from `p0/q0`. -/
lemma close_opt (t : ℚ) (M p0 q0 : ℕ) (hq0 : 1 ≤ q0) (hq0M : q0 ≤ M)
    (hclose : |t - (p0 : ℚ) / (q0 : ℚ)| < 1 / (10 * (M : ℚ) * (q0 : ℚ))) :
    ∀ (p : ℤ) (q : ℕ), 1 ≤ q → q ≤ M →
      |t - (p0 : ℚ) / (q0 : ℚ)| ≤ |t - (p : ℚ) / (q : ℚ)| := by
  intro p q hq hqM
  have hM : 1 ≤ M := le_trans hq0 hq0M
  have hq0' : (0 : ℚ) < (q0 : ℚ) := by exact_mod_cast hq0
  have hq' : (0 : ℚ) < (q : ℚ) := by exact_mod_cast hq
  have hM' : (0 : ℚ) < (M : ℚ) := by exact_mod_cast hM
  by_cases heq : (p : ℚ) / (q : ℚ) = (p0 : ℚ) / (q0 : ℚ)
  · rw [heq]
  · have hnum : (p : ℤ) * (q0 : ℤ) - (q : ℤ) * (p0 : ℤ) ≠ 0 := by
      intro h0
      apply heq
      rw [div_eq_div_iff (ne_of_gt hq') (ne_of_gt hq0')]
      have hc : (q : ℤ) * (p0 : ℤ) = (p0 : ℤ) * (q : ℤ) := mul_comm _ _
      have : (p : ℤ) * (q0 : ℤ) = (p0 : ℤ) * (q : ℤ) := by omega
      exact_mod_cast this
    have habs1 : (1 : ℚ) ≤ |(p : ℚ) * (q0 : ℚ) - (q : ℚ) * (p0 : ℚ)| := by
      exact_mod_cast Int.one_le_abs hnum
    have hdiff : 1 / ((q : ℚ) * (q0 : ℚ)) ≤ |(p : ℚ) / (q : ℚ) - (p0 : ℚ) / (q0 : ℚ)| := by
      rw [div_sub_div _ _ (ne_of_gt hq') (ne_of_gt hq0'), abs_div,
        abs_of_pos (mul_pos hq' hq0')]
      gcongr
    have hqM' : ((q : ℚ)) * (q0 : ℚ) ≤ (M : ℚ) * (q0 : ℚ) := by
      have : (q : ℚ) ≤ (M : ℚ) := by exact_mod_cast hqM
      exact mul_le_mul_of_nonneg_right this (le_of_lt hq0')
    have hdiff2 : 1 / ((M : ℚ) * (q0 : ℚ)) ≤ |(p : ℚ) / (q : ℚ) - (p0 : ℚ) / (q0 : ℚ)| :=
      le_trans (one_div_le_one_div_of_le (mul_pos hq' hq0') hqM') hdiff
    have tri : |(p : ℚ) / (q : ℚ) - (p0 : ℚ) / (q0 : ℚ)| ≤
        |t - (p : ℚ) / (q : ℚ)| + |t - (p0 : ℚ) / (q0 : ℚ)| := by
      calc |(p : ℚ) / (q : ℚ) - (p0 : ℚ) / (q0 : ℚ)|
          ≤ |(p : ℚ) / (q : ℚ) - t| + |t - (p0 : ℚ) / (q0 : ℚ)| :=
            abs_sub_le _ t _
        _ = |t - (p : ℚ) / (q : ℚ)| + |t - (p0 : ℚ) / (q0 : ℚ)| := by
            rw [abs_sub_comm]
    have hscale : 1 / ((M : ℚ) * (q0 : ℚ)) = 10 * (1 / (10 * (M : ℚ) * (q0 : ℚ))) := by
      field_simp
      ring
    have hu : (0 : ℚ) < 1 / (10 * (M : ℚ) * (q0 : ℚ)) := by positivity
    linarith

/-- Behaviour of the fast-forward step count: under the loop guard
`b + d ≤ M` and with `1 ≤ N`, the computed count `k` satisfies
`1 ≤ k`, `k ≤ N`, the updated denominator stays within the bound
(`d + k*b ≤ M`), and either the *next* mediant denominator already
exceeds the bound (the source's denominator-limiting branch fired) or
`k` was the full floor of `N` (so `N < k + 1`). -/
lemma fareyNint_spec (M d b : ℕ) (N : ℚ) (hb : 1 ≤ b) (hbd : b + d ≤ M)
    (hN : 1 ≤ N) :
    1 ≤ fareyNint M d b N ∧ ((fareyNint M d b N : ℚ) ≤ N) ∧
    d + fareyNint M d b N * b ≤ M ∧
    (M < b + (d + fareyNint M d b N * b) ∨ N < (fareyNint M d b N : ℚ) + 1) := by
  have hfl1 : (1 : ℤ) ≤ ⌊N⌋ := Int.le_floor.mpr (by exact_mod_cast hN)
  have hn0' : 1 ≤ (⌊N⌋).toNat := by omega
  have hite : (if (⌊N⌋).toNat < 1 then 1 else (⌊N⌋).toNat) = (⌊N⌋).toNat :=
    if_neg (by omega)
  have hcast : (((⌊N⌋).toNat : ℕ) : ℚ) = ((⌊N⌋ : ℤ) : ℚ) := by
    exact_mod_cast Int.toNat_of_nonneg (by omega : (0 : ℤ) ≤ ⌊N⌋)
  have hn1N : (((⌊N⌋).toNat : ℕ) : ℚ) ≤ N := by
    rw [hcast]; exact Int.floor_le N
  have hn1N' : N < (((⌊N⌋).toNat : ℕ) : ℚ) + 1 := by
    rw [hcast]; exact Int.lt_floor_add_one N
  unfold fareyNint
  rw [hite]
  split_ifs with hlim
  · -- the source limits Nint so that the denominator stays within maxdenom
    have hbMd : b ≤ M - d := by omega
    have hk1 : 1 ≤ (M - d) / b := (Nat.one_le_div_iff (by omega)).mpr hbMd
    have hkb : (M - d) / b * b ≤ M - d := Nat.div_mul_le_self (M - d) b
    have hdkM : d + (M - d) / b * b ≤ M := by omega
    refine ⟨hk1, ?_, hdkM, Or.inl ?_⟩
    · -- k < floor N, hence (k : ℚ) ≤ N
      have hklt : (M - d) / b < (⌊N⌋).toNat := by
        by_contra hcon
        push_neg at hcon
        have := Nat.mul_le_mul_right b hcon
        omega
      calc (((M - d) / b : ℕ) : ℚ) ≤ (((⌊N⌋).toNat : ℕ) : ℚ) - 1 := by
            have : (M - d) / b + 1 ≤ (⌊N⌋).toNat := hklt
            have := (Nat.cast_le (α := ℚ)).mpr this
            push_cast at this ⊢
            linarith
        _ ≤ N - 1 + 1 - 1 := by linarith
        _ ≤ N := by linarith
    · -- one more step of size b would overflow: M < b + (d + k*b)
      have hmod := Nat.div_add_mod (M - d) b
      have hmlt : (M - d) % b < b := Nat.mod_lt _ (by omega)
      have hcomm : b * ((M - d) / b) = (M - d) / b * b := Nat.mul_comm _ _
      omega
  · push_neg at hlim
    exact ⟨hn0', hn1N, hlim, Or.inr hn1N'⟩

/-- Fidelity of the `ℕ` embedding to the source's `uint32_t` arithmetic:
from any loop state satisfying the invariant, every value the source
computes in `uint32_t` during the next iteration is at most `11 * M`.
Listed per fast-forward branch (the two implications, whose hypotheses are
exactly the conditions under which the source computes `N` at all): the
mediant parts `a + c` and `b + d`, the conversion `(uint32_t)floor(N)`,
the product `Nint * b` (resp. `Nint * d`) and the sum `d + Nint * b`
(resp. `b + Nint * d`) of the denominator-overflow check, and the final
updated numerator and denominator after the possible limiting step.
Hence for `M ≤ 390451572` one has `11 * M ≤ 4294967292 < 2^32`: no
`uint32_t` operation can wrap, the conversion of `N` is in range, and the
unbounded-`ℕ` model computes exactly the values the machine does.  This
is the domain hypothesis of `rational_approximation_optimal`. -/
lemma farey_no_uint32_overflow (t : ℚ) (M a b c d : ℕ) (N : ℚ)
    (inv : FareyInv t M a b c d) :
    a + c ≤ 11 * M ∧ b + d ≤ 11 * M ∧
    (N = ((c : ℚ) - t * (d : ℚ)) / (t * (b : ℚ) - (a : ℚ)) →
      ¬ t * (b : ℚ) - (a : ℚ) < 1 / (10 * (M : ℚ)) →
      (⌊N⌋).toNat ≤ 10 * M ∧
      (if (⌊N⌋).toNat < 1 then 1 else (⌊N⌋).toNat) * b ≤ 10 * M ∧
      d + (if (⌊N⌋).toNat < 1 then 1 else (⌊N⌋).toNat) * b ≤ 11 * M ∧
      c + fareyNint M d b N * a ≤ 11 * M ∧
      d + fareyNint M d b N * b ≤ 11 * M) ∧
    (N = (t * (b : ℚ) - (a : ℚ)) / ((c : ℚ) - t * (d : ℚ)) →
      ¬ (c : ℚ) - t * (d : ℚ) < 1 / (10 * (M : ℚ)) →
      (⌊N⌋).toNat ≤ 10 * M ∧
      (if (⌊N⌋).toNat < 1 then 1 else (⌊N⌋).toNat) * d ≤ 10 * M ∧
      b + (if (⌊N⌋).toNat < 1 then 1 else (⌊N⌋).toNat) * d ≤ 11 * M ∧
      a + fareyNint M b d N * c ≤ 11 * M ∧
      b + fareyNint M b d N * d ≤ 11 * M) := by
  obtain ⟨hb, hd, hbM, hdM, huni, hab, hcd, hableb, hcled⟩ := inv
  have hM : 1 ≤ M := le_trans hb hbM
  have hb' : (0 : ℚ) < (b : ℚ) := by exact_mod_cast hb
  have hd' : (0 : ℚ) < (d : ℚ) := by exact_mod_cast hd
  have hM' : (0 : ℚ) < (M : ℚ) := by exact_mod_cast hM
  have hbne : (b : ℚ) ≠ 0 := ne_of_gt hb'
  have huniQ : (b : ℚ) * (c : ℚ) - (a : ℚ) * (d : ℚ) = 1 := by exact_mod_cast huni
  have htb : (a : ℚ) ≤ t * (b : ℚ) := by
    rw [div_le_iff hb'] at hab
    linarith
  have htd : t * (d : ℚ) ≤ (c : ℚ) := by
    rw [le_div_iff hd'] at hcd
    linarith
  have hcM : c ≤ M := le_trans hcled hdM
  have haM : a ≤ M := le_trans hableb hbM
  refine ⟨by omega, by omega, ?_, ?_⟩
  · intro hNdef hcl
    push_neg at hcl
    have hNd : (0 : ℚ) < t * (b : ℚ) - (a : ℚ) :=
      lt_of_lt_of_le (by positivity) hcl
    have hnum : (c : ℚ) - t * (d : ℚ) ≤ 1 / (b : ℚ) := by
      rw [le_div_iff hb']
      nlinarith [mul_le_mul_of_nonneg_right htb (le_of_lt hd')]
    have hN0 : 0 ≤ N := hNdef ▸ div_nonneg (by linarith) (le_of_lt hNd)
    have hNle : N ≤ 1 / (b : ℚ) * (10 * (M : ℚ)) := by
      rw [hNdef]
      have heqd : (1 / (b : ℚ)) / (1 / (10 * (M : ℚ)))
          = 1 / (b : ℚ) * (10 * (M : ℚ)) := by
        rw [one_div (10 * (M : ℚ)), div_eq_mul_inv, inv_inv]
      exact le_trans (div_le_div (by positivity) hnum (by positivity) hcl)
        (le_of_eq heqd)
    have hNb : N * (b : ℚ) ≤ 10 * (M : ℚ) := by
      have h3 := mul_le_mul_of_nonneg_right hNle (le_of_lt hb')
      have e2 : 1 / (b : ℚ) * (10 * (M : ℚ)) * (b : ℚ)
          = 10 * (M : ℚ) * (1 / (b : ℚ) * (b : ℚ)) := by ring
      have e3 : 1 / (b : ℚ) * (b : ℚ) = 1 := one_div_mul_cancel hbne
      rw [e2, e3, mul_one] at h3
      exact h3
    have hflQ : (((⌊N⌋).toNat : ℕ) : ℚ) ≤ N := by
      have hc2 : (((⌊N⌋).toNat : ℕ) : ℚ) = ((⌊N⌋ : ℤ) : ℚ) := by
        exact_mod_cast Int.toNat_of_nonneg (Int.floor_nonneg.mpr hN0)
      rw [hc2]
      exact Int.floor_le N
    have hk0b : (⌊N⌋).toNat * b ≤ 10 * M := by
      have hq : (((⌊N⌋).toNat * b : ℕ) : ℚ) ≤ ((10 * M : ℕ) : ℚ) := by
        push_cast
        calc ((⌊N⌋).toNat : ℚ) * (b : ℚ) ≤ N * (b : ℚ) :=
              mul_le_mul_of_nonneg_right hflQ (le_of_lt hb')
          _ ≤ 10 * (M : ℚ) := hNb
      exact_mod_cast hq
    have hk0 : (⌊N⌋).toNat ≤ 10 * M :=
      le_trans (Nat.le_mul_of_pos_right _ (by omega)) hk0b
    have hk1b : (if (⌊N⌋).toNat < 1 then 1 else (⌊N⌋).toNat) * b ≤ 10 * M := by
      split_ifs with h0
      · omega
      · exact hk0b
    have hstep : ∀ k1 : ℕ, k1 * b ≤ 10 * M →
        c + (if d + k1 * b > M then (M - d) / b else k1) * a ≤ 11 * M ∧
        d + (if d + k1 * b > M then (M - d) / b else k1) * b ≤ 11 * M := by
      intro k1 hk1
      split_ifs with hlim
      · have hkb : (M - d) / b * b ≤ M - d := Nat.div_mul_le_self _ _
        have hka : (M - d) / b * a ≤ (M - d) / b * b := Nat.mul_le_mul_left _ hableb
        exact ⟨le_trans (Nat.add_le_add_left (le_trans hka hkb) c) (by omega),
          le_trans (Nat.add_le_add_left hkb d) (by omega)⟩
      · have hka : k1 * a ≤ k1 * b := Nat.mul_le_mul_left _ hableb
        exact ⟨le_trans (Nat.add_le_add hcM (le_trans hka hk1)) (by omega),
          le_trans (Nat.add_le_add hdM hk1) (by omega)⟩
    obtain ⟨hu1, hu2⟩ := hstep (if (⌊N⌋).toNat < 1 then 1 else (⌊N⌋).toNat) hk1b
    exact ⟨hk0, hk1b, le_trans (Nat.add_le_add hdM hk1b) (by omega), hu1, hu2⟩
  · intro hNdef hcl
    push_neg at hcl
    have hNd : (0 : ℚ) < (c : ℚ) - t * (d : ℚ) :=
      lt_of_lt_of_le (by positivity) hcl
    have hdne : (d : ℚ) ≠ 0 := ne_of_gt hd'
    have hnum : t * (b : ℚ) - (a : ℚ) ≤ 1 / (d : ℚ) := by
      rw [le_div_iff hd']
      nlinarith [mul_le_mul_of_nonneg_right htd (le_of_lt hb')]
    have hN0 : 0 ≤ N := hNdef ▸ div_nonneg (by linarith) (le_of_lt hNd)
    have hNle : N ≤ 1 / (d : ℚ) * (10 * (M : ℚ)) := by
      rw [hNdef]
      have heqd : (1 / (d : ℚ)) / (1 / (10 * (M : ℚ)))
          = 1 / (d : ℚ) * (10 * (M : ℚ)) := by
        rw [one_div (10 * (M : ℚ)), div_eq_mul_inv, inv_inv]
      exact le_trans (div_le_div (by positivity) hnum (by positivity) hcl)
        (le_of_eq heqd)
    have hNb : N * (d : ℚ) ≤ 10 * (M : ℚ) := by
      have h3 := mul_le_mul_of_nonneg_right hNle (le_of_lt hd')
      have e2 : 1 / (d : ℚ) * (10 * (M : ℚ)) * (d : ℚ)
          = 10 * (M : ℚ) * (1 / (d : ℚ) * (d : ℚ)) := by ring
      have e3 : 1 / (d : ℚ) * (d : ℚ) = 1 := one_div_mul_cancel hdne
      rw [e2, e3, mul_one] at h3
      exact h3
    have hflQ : (((⌊N⌋).toNat : ℕ) : ℚ) ≤ N := by
      have hc2 : (((⌊N⌋).toNat : ℕ) : ℚ) = ((⌊N⌋ : ℤ) : ℚ) := by
        exact_mod_cast Int.toNat_of_nonneg (Int.floor_nonneg.mpr hN0)
      rw [hc2]
      exact Int.floor_le N
    have hk0d : (⌊N⌋).toNat * d ≤ 10 * M := by
      have hq : (((⌊N⌋).toNat * d : ℕ) : ℚ) ≤ ((10 * M : ℕ) : ℚ) := by
        push_cast
        calc ((⌊N⌋).toNat : ℚ) * (d : ℚ) ≤ N * (d : ℚ) :=
              mul_le_mul_of_nonneg_right hflQ (le_of_lt hd')
          _ ≤ 10 * (M : ℚ) := hNb
      exact_mod_cast hq
    have hk0 : (⌊N⌋).toNat ≤ 10 * M :=
      le_trans (Nat.le_mul_of_pos_right _ (by omega)) hk0d
    have hk1d : (if (⌊N⌋).toNat < 1 then 1 else (⌊N⌋).toNat) * d ≤ 10 * M := by
      split_ifs with h0
      · omega
      · exact hk0d
    have hstep : ∀ k1 : ℕ, k1 * d ≤ 10 * M →
        a + (if b + k1 * d > M then (M - b) / d else k1) * c ≤ 11 * M ∧
        b + (if b + k1 * d > M then (M - b) / d else k1) * d ≤ 11 * M := by
      intro k1 hk1
      split_ifs with hlim
      · have hkd : (M - b) / d * d ≤ M - b := Nat.div_mul_le_self _ _
        have hkc : (M - b) / d * c ≤ (M - b) / d * d := Nat.mul_le_mul_left _ hcled
        exact ⟨le_trans (Nat.add_le_add_left (le_trans hkc hkd) a) (by omega),
          le_trans (Nat.add_le_add_left hkd b) (by omega)⟩
      · have hkc : k1 * c ≤ k1 * d := Nat.mul_le_mul_left _ hcled
        exact ⟨le_trans (Nat.add_le_add haM (le_trans hkc hk1)) (by omega),
          le_trans (Nat.add_le_add hbM hk1) (by omega)⟩
    obtain ⟨hu1, hu2⟩ := hstep (if (⌊N⌋).toNat < 1 then 1 else (⌊N⌋).toNat) hk1d
    exact ⟨hk0, hk1d, le_trans (Nat.add_le_add hbM hk1d) (by omega), hu1, hu2⟩

/-- `Nat.fib 50` exceeds twice the largest `uint32_t`; used to show the
`ii > 100` safety net of the loop is unreachable for exact arithmetic. -/
lemma fib_cap (M b d ii : ℕ) (hM32 : M ≤ 4294967295) (hbM : b ≤ M) (hdM : d ≤ M)
    (hfib : Nat.fib (ii + 2) ≤ b + d) (hii : 48 ≤ ii) : False := by
  have h50 : (50 : ℕ) ≤ ii + 2 := by omega
  have hmono : Nat.fib 50 ≤ Nat.fib (ii + 2) := Nat.fib_mono h50
  have hfib50 : Nat.fib 50 = 12586269025 := by decide
  omega

set_option maxHeartbeats 1600000 in
/-- Main induction: from any loop state satisfying the invariant, together
with the Fibonacci growth facts that make the `ii > 100` exit unreachable,
the Farey loop returns an optimal fraction. -/
lemma fareyLoop_opt (t : ℚ) (M : ℕ) (hM : 1 ≤ M) (hM32 : M ≤ 4294967295) :
    ∀ (fuel a b c d ii : ℕ),
      102 ≤ fuel + ii →
      FareyInv t M a b c d →
      (M < b + d ∨
        (Nat.fib (ii + 2) ≤ b + d ∧
          (t < ((a + c : ℕ) : ℚ) / ((b + d : ℕ) : ℚ) → Nat.fib (ii + 1) ≤ b) ∧
          (¬ t < ((a + c : ℕ) : ℚ) / ((b + d : ℕ) : ℚ) → Nat.fib (ii + 1) ≤ d))) →
      FareyOpt t M (fareyLoop t M fuel a b c d ii) := by
  intro fuel
  induction fuel with
  | zero =>
    intro a b c d ii hfuel inv hgrow
    obtain ⟨hb, hd, hbM, hdM, huni, hab, hcd, hableb, hcled⟩ := id inv
    rcases hgrow with hMlt | ⟨hfib, -, -⟩
    · exact fareySelect_opt t M a b c d ii inv hMlt
    · exact (fib_cap M b d ii hM32 hbM hdM hfib (by omega)).elim
  | succ fuel IH =>
    intro a b c d ii hfuel inv hgrow
    obtain ⟨hb, hd, hbM, hdM, huni, hab, hcd, hableb, hcled⟩ := id inv
    have hb' : (0 : ℚ) < (b : ℚ) := by exact_mod_cast hb
    have hd' : (0 : ℚ) < (d : ℚ) := by exact_mod_cast hd
    have hM' : (0 : ℚ) < (M : ℚ) := by exact_mod_cast hM
    rw [fareyLoop]
    split_ifs with hstop hmed hclose1 hclose2
    · -- loop exit: denominator too big or iteration cap
      rcases le_or_lt (b + d) M with hbdM | hMbd
      · rcases hgrow with hMlt | ⟨hfib, -, -⟩
        · omega
        · exact (fib_cap M b d ii hM32 hbM hdM hfib (by omega)).elim
      · exact fareySelect_opt t M a b c d ii inv hMbd
    · -- early exit: target*b - a below Ndenom_min, return a/b
      refine ⟨hb, hbM, ?_⟩
      intro p q hq hqM
      show |t - (a : ℚ) / (b : ℚ)| ≤ |t - (p : ℚ) / (q : ℚ)|
      have heq : t - (a : ℚ) / (b : ℚ) = (t * (b : ℚ) - (a : ℚ)) / (b : ℚ) := by
        field_simp
      have habs : |t - (a : ℚ) / (b : ℚ)| = t - (a : ℚ) / (b : ℚ) :=
        abs_of_nonneg (by linarith)
      have hlt : |t - (a : ℚ) / (b : ℚ)| < 1 / (10 * (M : ℚ) * (b : ℚ)) := by
        rw [habs, heq, div_lt_div_iff hb' (by positivity)]
        have hfld : (1 / (10 * (M : ℚ))) * (10 * (M : ℚ) * (b : ℚ)) = (b : ℚ) := by
          field_simp
        have hmul := mul_lt_mul_of_pos_right hclose1
          (show (0 : ℚ) < 10 * (M : ℚ) * (b : ℚ) by positivity)
        rw [hfld] at hmul
        linarith
      exact close_opt t M a b hb hbM hlt p q hq hqM
    · -- fast-forward on the c/d side
      push_neg at hstop
      obtain ⟨hbdM, hii⟩ := hstop
      have hbdM' : b + d ≤ M := by omega
      set N : ℚ := ((c : ℚ) - t * (d : ℚ)) / (t * (b : ℚ) - (a : ℚ)) with hNdef
      set k : ℕ := fareyNint M d b N with hkdef
      push_neg at hclose1
      have hNd : (0 : ℚ) < t * (b : ℚ) - (a : ℚ) :=
        lt_of_lt_of_le (by positivity) hclose1
      have hmedQ : t * ((b : ℚ) + (d : ℚ)) < (a : ℚ) + (c : ℚ) := by
        rw [lt_div_iff (by positivity : (0 : ℚ) < ((b + d : ℕ) : ℚ))] at hmed
        push_cast at hmed
        linarith
      have hNgt1 : 1 < N := by
        rw [hNdef, lt_div_iff hNd]
        linarith
      obtain ⟨hk1, hkN, hdkM, hdisj⟩ :=
        fareyNint_spec M d b N hb hbdM' (le_of_lt hNgt1)
      rw [← hkdef] at hk1 hkN hdkM hdisj
      have hNmul : N * (t * (b : ℚ) - (a : ℚ)) = (c : ℚ) - t * (d : ℚ) :=
        div_mul_cancel₀ _ (ne_of_gt hNd)
      have hcds : t * ((d : ℚ) + (k : ℚ) * (b : ℚ)) ≤ (c : ℚ) + (k : ℚ) * (a : ℚ) := by
        nlinarith [mul_le_mul_of_nonneg_right hkN (le_of_lt hNd)]
      have inv' : FareyInv t M a b (c + k * a) (d + k * b) := by
        refine ⟨hb, by omega, hbM, hdkM, ?_, hab, ?_,
          hableb, Nat.add_le_add hcled (Nat.mul_le_mul_left k hableb)⟩
        · push_cast
          linear_combination huni
        · rw [le_div_iff (by positivity : (0 : ℚ) < ((d + k * b : ℕ) : ℚ))]
          push_cast
          linarith [hcds]
      apply IH a b (c + k * a) (d + k * b) (ii + 1) (by omega) inv'
      rcases hdisj with hnext | hk1N
      · exact Or.inl (by omega)
      · rcases hgrow with hMlt | ⟨hfib, hgb, -⟩
        · omega
        · have hfb : Nat.fib (ii + 1) ≤ b := hgb hmed
          have hkb : b ≤ k * b := Nat.le_mul_of_pos_left b (by omega)
          have halt : ((a + (c + k * a) : ℕ) : ℚ) / ((b + (d + k * b) : ℕ) : ℚ) < t := by
            rw [div_lt_iff (by positivity : (0 : ℚ) < ((b + (d + k * b) : ℕ) : ℚ))]
            push_cast
            nlinarith [mul_lt_mul_of_pos_right hk1N hNd]
          have hbridge : Nat.fib (ii + 1 + 1) = Nat.fib (ii + 2) := rfl
          have hsum := Nat.fib_add_two (n := ii + 1)
          refine Or.inr ⟨?_, ?_, ?_⟩
          · omega
          · intro hcon
            exact absurd hcon (not_lt.mpr (le_of_lt halt))
          · intro _
            omega
    · -- early exit: c - target*d below Ndenom_min, return c/d
      refine ⟨hd, hdM, ?_⟩
      intro p q hq hqM
      show |t - (c : ℚ) / (d : ℚ)| ≤ |t - (p : ℚ) / (q : ℚ)|
      have heq : (c : ℚ) / (d : ℚ) - t = ((c : ℚ) - t * (d : ℚ)) / (d : ℚ) := by
        field_simp
        ring
      have habs : |t - (c : ℚ) / (d : ℚ)| = (c : ℚ) / (d : ℚ) - t := by
        rw [abs_sub_comm]
        exact abs_of_nonneg (by linarith)
      have hlt : |t - (c : ℚ) / (d : ℚ)| < 1 / (10 * (M : ℚ) * (d : ℚ)) := by
        rw [habs, heq, div_lt_div_iff hd' (by positivity)]
        have hfld : (1 / (10 * (M : ℚ))) * (10 * (M : ℚ) * (d : ℚ)) = (d : ℚ) := by
          field_simp
        have hmul := mul_lt_mul_of_pos_right hclose2
          (show (0 : ℚ) < 10 * (M : ℚ) * (d : ℚ) by positivity)
        rw [hfld] at hmul
        linarith
      exact close_opt t M c d hd hdM hlt p q hq hqM
    · -- fast-forward on the a/b side
      push_neg at hstop
      obtain ⟨hbdM, hii⟩ := hstop
      have hbdM' : b + d ≤ M := by omega
      set N : ℚ := (t * (b : ℚ) - (a : ℚ)) / ((c : ℚ) - t * (d : ℚ)) with hNdef
      set k : ℕ := fareyNint M b d N with hkdef
      push_neg at hclose2
      have hNd : (0 : ℚ) < (c : ℚ) - t * (d : ℚ) :=
        lt_of_lt_of_le (by positivity) hclose2
      have hmedQ : (a : ℚ) + (c : ℚ) ≤ t * ((b : ℚ) + (d : ℚ)) := by
        push_neg at hmed
        rw [div_le_iff (by positivity : (0 : ℚ) < ((b + d : ℕ) : ℚ))] at hmed
        push_cast at hmed
        linarith
      have hNge1 : 1 ≤ N := by
        rw [hNdef, le_div_iff hNd]
        linarith
      obtain ⟨hk1, hkN, hdkM, hdisj⟩ :=
        fareyNint_spec M b d N hd (by omega) hNge1
      rw [← hkdef] at hk1 hkN hdkM hdisj
      have hNmul : N * ((c : ℚ) - t * (d : ℚ)) = t * (b : ℚ) - (a : ℚ) :=
        div_mul_cancel₀ _ (ne_of_gt hNd)
      have habs2 : (a : ℚ) + (k : ℚ) * (c : ℚ) ≤ t * ((b : ℚ) + (k : ℚ) * (d : ℚ)) := by
        nlinarith [mul_le_mul_of_nonneg_right hkN (le_of_lt hNd)]
      have inv' : FareyInv t M (a + k * c) (b + k * d) c d := by
        refine ⟨by omega, hd, hdkM, hdM, ?_, ?_, hcd,
          Nat.add_le_add hableb (Nat.mul_le_mul_left k hcled), hcled⟩
        · push_cast
          linear_combination huni
        · rw [div_le_iff (by positivity : (0 : ℚ) < ((b + k * d : ℕ) : ℚ))]
          push_cast
          linarith [habs2]
      apply IH (a + k * c) (b + k * d) c d (ii + 1) (by omega) inv'
      rcases hdisj with hnext | hk1N
      · exact Or.inl (by omega)
      · rcases hgrow with hMlt | ⟨hfib, -, hgd⟩
        · omega
        · have hfd : Nat.fib (ii + 1) ≤ d := hgd hmed
          have hkd : d ≤ k * d := Nat.le_mul_of_pos_left d (by omega)
          have halt : t < (((a + k * c) + c : ℕ) : ℚ) / (((b + k * d) + d : ℕ) : ℚ) := by
            rw [lt_div_iff (by positivity : (0 : ℚ) < (((b + k * d) + d : ℕ) : ℚ))]
            push_cast
            nlinarith [mul_lt_mul_of_pos_right hk1N hNd]
          have hbridge : Nat.fib (ii + 1 + 1) = Nat.fib (ii + 2) := rfl
          have hsum := Nat.fib_add_two (n := ii + 1)
          refine Or.inr ⟨?_, ?_, ?_⟩
          · omega
          · intro _
            omega
          · intro hcon
            exact absurd halt hcon

/-- C1: for every target in `[0,1]` and every `maxdenom` in
`[1, 390451572]`, the fraction returned by `rational_approximation` has
denominator at most `maxdenom` and minimal distance to the target among
all fractions `p/q` with `1 ≤ q ≤ maxdenom`.

The upper bound is `⌊(2^32 - 1) / 11⌋`: by `farey_no_uint32_overflow`
every value the source's loop computes in `uint32_t` is at most
`11 * maxdenom`, so on this range the exact embedding and the machine
compute identical values (the program's only call site passes
`maxdenom ≤ 15000`).  For larger `maxdenom` the step count `⌊N⌋` can
reach `~10 * maxdenom ≥ 2^32` and the source's `(uint32_t)floor(N)`
conversion is undefined behaviour, so the theorem does not extend
there. -/
theorem rational_approximation_optimal (target : ℚ) (maxdenom : ℕ)
    (ht0 : 0 ≤ target) (ht1 : target ≤ 1) (hm : 1 ≤ maxdenom)
    (hm32 : maxdenom ≤ 390451572) :
    1 ≤ (rational_approximation target maxdenom).denominator ∧
    (rational_approximation target maxdenom).denominator ≤ maxdenom ∧
    ∀ (p : ℤ) (q : ℕ), 1 ≤ q → q ≤ maxdenom →
      |target - ((rational_approximation target maxdenom).numerator : ℚ) /
        ((rational_approximation target maxdenom).denominator : ℚ)| ≤
      |target - (p : ℚ) / (q : ℚ)| := by
  have hres : rational_approximation target maxdenom
      = fareyLoop target maxdenom 102 0 1 1 1 0 := by
    unfold rational_approximation
    rw [if_neg (by linarith : ¬ target > 1), if_neg (by linarith : ¬ target < 0)]
    show fareyLoop target (if maxdenom < 1 then 1 else maxdenom) 102 0 1 1 1 0 = _
    rw [if_neg (by omega : ¬ maxdenom < 1)]
  have inv : FareyInv target maxdenom 0 1 1 1 := by
    refine ⟨le_refl 1, le_refl 1, hm, hm, by norm_num, ?_, ?_, Nat.zero_le 1, le_refl 1⟩
    · push_cast
      simpa using ht0
    · push_cast
      simpa using ht1
  have hgrow : maxdenom < 1 + 1 ∨
      (Nat.fib (0 + 2) ≤ 1 + 1 ∧
        (target < ((0 + 1 : ℕ) : ℚ) / ((1 + 1 : ℕ) : ℚ) → Nat.fib (0 + 1) ≤ 1) ∧
        (¬ target < ((0 + 1 : ℕ) : ℚ) / ((1 + 1 : ℕ) : ℚ) → Nat.fib (0 + 1) ≤ 1)) :=
    Or.inr ⟨by decide, fun _ => by decide, fun _ => by decide⟩
  have h := fareyLoop_opt target maxdenom hm (by omega) 102 0 1 1 1 0 (by omega) inv hgrow
  rw [hres]
  exact h

/-- Witness for `rational_approximation_optimal`: at `target = 1/2`,
`maxdenom = 3000` the returned fraction (which is `1/2`) is no farther
from the target than the fraction `1/3`. -/
theorem rational_approximation_optimal_witness :
    1 ≤ (rational_approximation (1/2) 3000).denominator ∧
    (rational_approximation (1/2) 3000).denominator ≤ 3000 ∧
    |(1/2 : ℚ) - ((rational_approximation (1/2) 3000).numerator : ℚ) /
      ((rational_approximation (1/2) 3000).denominator : ℚ)| ≤
      |(1/2 : ℚ) - ((1 : ℤ) : ℚ) / ((3 : ℕ) : ℚ)| := by
  obtain ⟨h1, h2, h3⟩ := rational_approximation_optimal (1/2) 3000
    (by norm_num) (by norm_num) (by norm_num) (by norm_num)
  exact ⟨h1, h2, h3 1 3 (by norm_num) (by norm_num)⟩

/-- The updated denominator of a fast-forward step never exceeds the
clamped `maxdenom` (holds independently of the step-count formula). -/
lemma fareyNint_den_le (M d b : ℕ) (N : ℚ) (hdM : d ≤ M) :
    d + fareyNint M d b N * b ≤ M := by
  unfold fareyNint
  have hdiv := Nat.div_mul_le_self (M - d) b
  split_ifs <;> omega

/-- Unconditional denominator bounds for the Farey loop: starting from
denominators in `[1, M]` the result denominator stays in `[1, M]`,
whatever the target. -/
lemma fareyLoop_den_bounds (t : ℚ) (M : ℕ) :
    ∀ (fuel a b c d ii : ℕ), 1 ≤ b → 1 ≤ d → b ≤ M → d ≤ M →
      1 ≤ (fareyLoop t M fuel a b c d ii).denominator ∧
      (fareyLoop t M fuel a b c d ii).denominator ≤ M := by
  intro fuel
  induction fuel with
  | zero =>
    intro a b c d ii hb hd hbM hdM
    simp only [fareyLoop]
    unfold fareySelect
    split_ifs
    · exact ⟨hb, hbM⟩
    · exact ⟨hd, hdM⟩
  | succ fuel IH =>
    intro a b c d ii hb hd hbM hdM
    rw [fareyLoop]
    split_ifs with hstop hmed hclose1 hclose2
    · unfold fareySelect
      split_ifs
      · exact ⟨hb, hbM⟩
      · exact ⟨hd, hdM⟩
    · exact ⟨hb, hbM⟩
    · have hden := fareyNint_den_le M d b
        (((c : ℚ) - t * (d : ℚ)) / (t * (b : ℚ) - (a : ℚ))) hdM
      exact IH a b _ _ (ii + 1) hb (by omega) hbM (by omega)
    · exact ⟨hd, hdM⟩
    · have hden := fareyNint_den_le M b d
        ((t * (b : ℚ) - (a : ℚ)) / ((c : ℚ) - t * (d : ℚ))) hbM
      exact IH _ _ c d (ii + 1) (by omega) hd (by omega) hdM

/-- Denominator bounds for `rational_approximation` itself, for every
input: the result denominator is between 1 and `max 1 maxdenom`. -/
lemma rational_approximation_den_bounds (target : ℚ) (maxdenom : ℕ) :
    1 ≤ (rational_approximation target maxdenom).denominator ∧
    (rational_approximation target maxdenom).denominator ≤ max 1 maxdenom := by
  unfold rational_approximation
  split_ifs with h1 h2 h3
  · exact ⟨le_refl 1, le_max_left 1 maxdenom⟩
  · exact ⟨le_refl 1, le_max_left 1 maxdenom⟩
  · show 1 ≤ (fareyLoop target 1 102 0 1 1 1 0).denominator ∧
        (fareyLoop target 1 102 0 1 1 1 0).denominator ≤ max 1 maxdenom
    have h := fareyLoop_den_bounds target 1 102 0 1 1 1 0 le_rfl le_rfl le_rfl le_rfl
    exact ⟨h.1, le_trans h.2 (le_max_left 1 maxdenom)⟩
  · show 1 ≤ (fareyLoop target maxdenom 102 0 1 1 1 0).denominator ∧
        (fareyLoop target maxdenom 102 0 1 1 1 0).denominator ≤ max 1 maxdenom
    have h := fareyLoop_den_bounds target maxdenom 102 0 1 1 1 0
      le_rfl le_rfl (by omega) (by omega)
    exact ⟨h.1, le_trans h.2 (le_max_right 1 maxdenom)⟩

/-! ### Concrete behaviour of `rational_approximation` (claims C5, C6) -/

/-- C5 counterexample: at `target = 1/3001`, `maxdenom = 3000` the code
returns `1/3000` (in 1 loop iteration), not the fraction `0/1` the claim
asserts.  (`1/3000` is closer: `1/3000 - 1/3001 = 1/9003000 < 1/3001`.) -/
theorem rational_approximation_1_3001_3000_returns_1_3000 :
    rational_approximation (1/3001) 3000 = ⟨1, 3000, 1⟩ ∧
    ¬((rational_approximation (1/3001) 3000).numerator = 0 ∧
      (rational_approximation (1/3001) 3000).denominator = 1) := by
  constructor
  · with_unfolding_all rfl
  · with_unfolding_all decide

/-- C5 (amended): `rational_approximation(1/3001, 3000)` returns `1/3000`
and `rational_approximation(1/3001, 3001)` returns `1/3001`, each within
at most 12 loop iterations (in fact in a single iteration each). -/
theorem rational_approximation_convergence_speed :
    rational_approximation (1/3001) 3000 = ⟨1, 3000, 1⟩ ∧
    rational_approximation (1/3001) 3001 = ⟨1, 3001, 1⟩ ∧
    (rational_approximation (1/3001) 3000).iterations ≤ 12 ∧
    (rational_approximation (1/3001) 3001).iterations ≤ 12 := by
  refine ⟨?_, ?_, ?_, ?_⟩
  · with_unfolding_all rfl
  · with_unfolding_all rfl
  · with_unfolding_all decide
  · with_unfolding_all decide

/-- C6: the out-of-range clamps and boundary values of
`rational_approximation`: `target > 1` yields `1/1`, `target < 0` yields
`0/1`, `maxdenom < 1` (that is, `maxdenom = 0`) behaves as `maxdenom = 1`,
`target = 0` yields `0/1` and `target = 1` yields `1/1` for every
`maxdenom`, and `target = 0.5` with `maxdenom = 3000` yields `1/2`. -/
theorem rational_approximation_clamps :
    (∀ (target : ℚ) (maxdenom : ℕ), 1 < target →
        rational_approximation target maxdenom = ⟨1, 1, 0⟩) ∧
    (∀ (target : ℚ) (maxdenom : ℕ), target < 0 →
        rational_approximation target maxdenom = ⟨0, 1, 0⟩) ∧
    (∀ target : ℚ, rational_approximation target 0 = rational_approximation target 1) ∧
    (∀ maxdenom : ℕ, rational_approximation 0 maxdenom = ⟨0, 1, 0⟩) ∧
    (∀ maxdenom : ℕ, rational_approximation 1 maxdenom = ⟨1, 1, 0⟩) ∧
    rational_approximation (1/2) 3000 = ⟨1, 2, 1⟩ := by
  refine ⟨?_, ?_, ?_, ?_, ?_, by with_unfolding_all rfl⟩
  · intro target maxdenom h
    unfold rational_approximation
    rw [if_pos (by exact h)]
  · intro target maxdenom h
    unfold rational_approximation
    rw [if_neg (by linarith : ¬ target > 1), if_pos (by exact h)]
  · intro target
    unfold rational_approximation
    norm_num
  · intro maxdenom
    unfold rational_approximation
    rw [if_neg (by norm_num : ¬ (0 : ℚ) > 1), if_neg (by norm_num : ¬ (0 : ℚ) < 0)]
    show fareyLoop 0 (if maxdenom < 1 then 1 else maxdenom) 102 0 1 1 1 0 = _
    rcases Nat.lt_or_ge maxdenom 2 with hsmall | hbig
    · have hM : (if maxdenom < 1 then 1 else maxdenom) = 1 := by
        split_ifs <;> omega
      rw [hM]
      with_unfolding_all rfl
    · have hM : (if maxdenom < 1 then 1 else maxdenom) = maxdenom := by
        split_ifs <;> omega
      have h0 : (0 : ℚ) < (maxdenom : ℚ) := by
        exact_mod_cast Nat.lt_of_lt_of_le Nat.zero_lt_one (by omega)
      have hcond : (0 : ℚ) < 1 / (10 * (maxdenom : ℚ)) :=
        div_pos one_pos (by linarith)
      rw [hM, show (102 : ℕ) = 101 + 1 from rfl, fareyLoop]
      rw [if_neg (by omega : ¬ ((1 : ℕ) + 1 > maxdenom ∨ (0 : ℕ) > 100))]
      rw [if_pos (by push_cast; norm_num :
        (0 : ℚ) < (((0 : ℕ) + 1 : ℕ) : ℚ) / (((1 : ℕ) + 1 : ℕ) : ℚ))]
      rw [if_pos (by push_cast; linarith [hcond])]
  · intro maxdenom
    unfold rational_approximation
    rw [if_neg (by norm_num : ¬ (1 : ℚ) > 1), if_neg (by norm_num : ¬ (1 : ℚ) < 0)]
    show fareyLoop 1 (if maxdenom < 1 then 1 else maxdenom) 102 0 1 1 1 0 = _
    rcases Nat.lt_or_ge maxdenom 2 with hsmall | hbig
    · have hM : (if maxdenom < 1 then 1 else maxdenom) = 1 := by
        split_ifs <;> omega
      rw [hM]
      with_unfolding_all rfl
    · have hM : (if maxdenom < 1 then 1 else maxdenom) = maxdenom := by
        split_ifs <;> omega
      have h0 : (0 : ℚ) < (maxdenom : ℚ) := by
        exact_mod_cast Nat.lt_of_lt_of_le Nat.zero_lt_one (by omega)
      have hcond : (0 : ℚ) < 1 / (10 * (maxdenom : ℚ)) :=
        div_pos one_pos (by linarith)
      rw [hM, show (102 : ℕ) = 101 + 1 from rfl, fareyLoop]
      rw [if_neg (by omega : ¬ ((1 : ℕ) + 1 > maxdenom ∨ (0 : ℕ) > 100))]
      rw [if_neg (by push_cast; norm_num :
        ¬ (1 : ℚ) < (((0 : ℕ) + 1 : ℕ) : ℚ) / (((1 : ℕ) + 1 : ℕ) : ℚ))]
      rw [if_pos (by push_cast; linarith [hcond])]

/-- Witness for the clamp branches of `rational_approximation_clamps`:
`target = 2` (above range) yields `1/1`, `target = -1` (below range)
yields `0/1`. -/
theorem rational_approximation_clamps_witness :
    rational_approximation 2 5 = ⟨1, 1, 0⟩ ∧
    rational_approximation (-1) 7 = ⟨0, 1, 0⟩ := by
  obtain ⟨h1, h2, -, -, -, -⟩ := rational_approximation_clamps
  exact ⟨h1 2 5 (by norm_num), h2 (-1) 7 (by norm_num)⟩

/-! ## Buffer sizing (`synth::calculate_buffers`, synth.cpp)

The numeric core of `synth::calculate_buffers`: the frequency-to-length
mapping and the post-approximation scaling.  The source is

```
PperW = rational_approximation(frequency * 16.0 / (double)CPU_freq_actual,
                               min(max_words, max_words_limit));
n_periods = PperW.numerator;
n_words = PperW.denominator;
n_mult = floor(max_words/n_words);
n_periods *= n_mult;
n_words *= n_mult;
```

(`max_words` and `n_words` are `int`s, so `floor(max_words/n_words)` is
integer division.)  The buffer-filling part is modelled separately by the
quantizer streams below.
-/

def CPU_freq_actual : ℚ := 200000000

def max_words : ℕ := 15000

/-- The `(n_periods, n_words)` pair produced by `synth::calculate_buffers`
for a given `frequency` and configured `max_words_limit`. -/
def synth_calculate_buffers (frequency : ℚ) (max_words_limit : ℕ) : ℕ × ℕ :=
  ((rational_approximation (frequency * 16 / CPU_freq_actual)
      (min max_words max_words_limit)).numerator *
    (max_words / (rational_approximation (frequency * 16 / CPU_freq_actual)
      (min max_words max_words_limit)).denominator),
   (rational_approximation (frequency * 16 / CPU_freq_actual)
      (min max_words max_words_limit)).denominator *
    (max_words / (rational_approximation (frequency * 16 / CPU_freq_actual)
      (min max_words max_words_limit)).denominator))

example : synth_calculate_buffers 6250000 100 = (7500, 15000) := by
  with_unfolding_all rfl

/-- C3: the scaling step multiplies `n_periods` and `n_words` by the same
integer factor, so the realized ratio `n_periods / n_words` equals the
rational approximation of `frequency*16/clock` exactly, and `n_words`
is never zero. -/
theorem calculate_buffers_ratio_exact (frequency : ℚ) (max_words_limit : ℕ) :
    ((synth_calculate_buffers frequency max_words_limit).1 : ℚ) /
      ((synth_calculate_buffers frequency max_words_limit).2 : ℚ) =
      ((rational_approximation (frequency * 16 / CPU_freq_actual)
          (min max_words max_words_limit)).numerator : ℚ) /
        ((rational_approximation (frequency * 16 / CPU_freq_actual)
          (min max_words max_words_limit)).denominator : ℚ) ∧
    (synth_calculate_buffers frequency max_words_limit).2 ≠ 0 := by
  obtain ⟨hden1, hdenM⟩ := rational_approximation_den_bounds
    (frequency * 16 / CPU_freq_actual) (min max_words max_words_limit)
  set r := rational_approximation (frequency * 16 / CPU_freq_actual)
    (min max_words max_words_limit) with hr
  have hden15 : r.denominator ≤ 15000 := by
    have : max 1 (min max_words max_words_limit) ≤ 15000 := by
      unfold max_words
      omega
    omega
  have hm1 : 1 ≤ max_words / r.denominator :=
    (Nat.one_le_div_iff (by omega)).mpr (by unfold max_words; omega)
  constructor
  · show ((r.numerator * (max_words / r.denominator) : ℕ) : ℚ) /
        ((r.denominator * (max_words / r.denominator) : ℕ) : ℚ) = _
    push_cast
    rw [mul_div_mul_right]
    have : (0 : ℚ) < ((max_words / r.denominator : ℕ) : ℚ) := by
      exact_mod_cast hm1
    exact ne_of_gt this
  · show r.denominator * (max_words / r.denominator) ≠ 0
    have : 1 ≤ r.denominator * (max_words / r.denominator) :=
      Nat.one_le_iff_ne_zero.mpr (Nat.mul_ne_zero (by omega) (by omega))
    omega

/-- C4 counterexample: with the configured cap `max_words_limit = 100` and
`frequency = 6.25 MHz` (target ratio `1/2`), the realized `n_words` is
15000, far above the capacity `min(max_words, max_words_limit) = 100` that
was passed to the approximator: the scaling step uses the absolute
`max_words`, not the configured cap. -/
theorem calculate_buffers_ignores_configured_cap :
    (synth_calculate_buffers 6250000 100).2 = 15000 ∧
    min max_words 100 = 100 ∧
    ¬((synth_calculate_buffers 6250000 100).2 ≤ min max_words 100) := by
  refine ⟨by with_unfolding_all rfl, by with_unfolding_all rfl, ?_⟩
  with_unfolding_all decide

/-- C4 (amended): the approximation denominator respects the capacity
`min(configured, absolute)` passed as `max_denominator`, but the scaling
step multiplies `n_periods` and `n_words` by the largest integer factor
that keeps `n_words` within the *absolute* cap `max_words = 15000` (not
the `min`), and the resulting `n_words` is at least half of `max_words`. -/
theorem calculate_buffers_scaling (frequency : ℚ) (max_words_limit : ℕ) :
    (rational_approximation (frequency * 16 / CPU_freq_actual)
        (min max_words max_words_limit)).denominator
      ≤ max 1 (min max_words max_words_limit) ∧
    (synth_calculate_buffers frequency max_words_limit).2 ≤ max_words ∧
    (∀ k : ℕ, (rational_approximation (frequency * 16 / CPU_freq_actual)
        (min max_words max_words_limit)).denominator * k ≤ max_words →
      (rational_approximation (frequency * 16 / CPU_freq_actual)
        (min max_words max_words_limit)).denominator * k
        ≤ (synth_calculate_buffers frequency max_words_limit).2) ∧
    max_words ≤ 2 * (synth_calculate_buffers frequency max_words_limit).2 := by
  obtain ⟨hden1, hdenM⟩ := rational_approximation_den_bounds
    (frequency * 16 / CPU_freq_actual) (min max_words max_words_limit)
  set r := rational_approximation (frequency * 16 / CPU_freq_actual)
    (min max_words max_words_limit) with hr
  have hden15 : r.denominator ≤ 15000 := by
    have : max 1 (min max_words max_words_limit) ≤ 15000 := by
      unfold max_words
      omega
    omega
  have hm1 : 1 ≤ max_words / r.denominator :=
    (Nat.one_le_div_iff (by omega)).mpr (by unfold max_words; omega)
  refine ⟨hdenM, ?_, ?_, ?_⟩
  · show r.denominator * (max_words / r.denominator) ≤ max_words
    calc r.denominator * (max_words / r.denominator)
        = max_words / r.denominator * r.denominator := Nat.mul_comm _ _
      _ ≤ max_words := Nat.div_mul_le_self _ _
  · intro k hk
    show r.denominator * k ≤ r.denominator * (max_words / r.denominator)
    have hkm : k ≤ max_words / r.denominator :=
      (Nat.le_div_iff_mul_le (by omega)).mpr (by rw [Nat.mul_comm]; exact hk)
    exact Nat.mul_le_mul_left _ hkm
  · show max_words ≤ 2 * (r.denominator * (max_words / r.denominator))
    have hdm := Nat.div_add_mod max_words r.denominator
    have hmod : max_words % r.denominator < r.denominator :=
      Nat.mod_lt _ (by omega)
    have hdX : r.denominator ≤ r.denominator * (max_words / r.denominator) :=
      Nat.le_mul_of_pos_right _ (by omega)
    unfold max_words at hdm hmod hdX ⊢
    omega

/-- Witness for `calculate_buffers_scaling`: at `frequency = 6.25 MHz`,
`max_words_limit = 100`, the factor test at `k = 1` holds. -/
theorem calculate_buffers_scaling_witness :
    (synth_calculate_buffers 6250000 100).2 ≤ max_words ∧
    (rational_approximation (6250000 * 16 / CPU_freq_actual)
        (min max_words 100)).denominator * 1
      ≤ (synth_calculate_buffers 6250000 100).2 := by
  obtain ⟨-, h2, h3, -⟩ := calculate_buffers_scaling 6250000 100
  exact ⟨h2, h3 1 (by with_unfolding_all decide)⟩

/-! ## The playback scheduler (`dma_irq_handler`, synth.cpp)

`dma_irq_handler` runs at each buffer-completion event of the restart DMA
channel.  Its decision logic reads exactly two variables — the static
`dma_state` (0 = silent/idle, 1 = transmitting) and the flag
`enable_transmit` — and re-arms the restart channel with one of the four
buffer addresses.  The embedding models one completion event as a pure
step function on that state.
-/

inductive DmaState where
  | idle          -- dma_state == 0 in the source
  | transmitting  -- dma_state == 1
deriving Repr, DecidableEq

inductive BufferSel where
  | steady    -- synth_buffer_ptr
  | rampUp    -- synth_buffer_ramp_up_ptr
  | rampDown  -- synth_buffer_ramp_down_ptr
  | silent    -- synth_buffer_silent_ptr
deriving Repr, DecidableEq

/-- One buffer-completion event of `dma_irq_handler`: given
`enable_transmit` and the current `dma_state`, return the new `dma_state`
and the buffer used to re-arm the restart channel. -/
def dma_irq_step (enable_transmit : Bool) (s : DmaState) : DmaState × BufferSel :=
  if enable_transmit then
    match s with
    | .transmitting => (.transmitting, .steady)
    | .idle => (.transmitting, .rampUp)
  else
    match s with
    | .idle => (.idle, .silent)
    | .transmitting => (.idle, .rampDown)

/-- The buffers selected over a run of completion events with the given
sequence of `enable_transmit` samples. -/
def dma_run (s : DmaState) : List Bool → List BufferSel
  | [] => []
  | e :: es => (dma_irq_step e s).2 :: dma_run (dma_irq_step e s).1 es

/-- The `dma_state` values seen at each completion event (before the
event is processed). -/
def dma_states (s : DmaState) : List Bool → List DmaState
  | [] => []
  | e :: es => s :: dma_states (dma_irq_step e s).1 es

/-- Which buffer may directly follow which in the played sequence:
after `silent` only `silent` or `rampUp`; after `rampUp` only `steady` or
`rampDown`; after `steady` only `steady` or `rampDown`; after `rampDown`
only `silent` or `rampUp`.  This adjacency relation is exactly the
pattern `silent* (rampUp steady* rampDown silent*)*`. -/
def BufferFollows : BufferSel → BufferSel → Prop
  | .silent, b => b = .silent ∨ b = .rampUp
  | .rampUp, b => b = .steady ∨ b = .rampDown
  | .steady, b => b = .steady ∨ b = .rampDown
  | .rampDown, b => b = .silent ∨ b = .rampUp

/-- The post-state of a step is determined by the buffer it selected. -/
lemma dma_step_state (e : Bool) (s : DmaState) :
    (dma_irq_step e s).1 =
      (if (dma_irq_step e s).2 = .steady ∨ (dma_irq_step e s).2 = .rampUp
        then .transmitting else .idle) := by
  cases e <;> cases s <;> rfl

/-- The first buffer selected from a given pre-state is constrained by
that state: from `idle` only `silent` or `rampUp` can come first, from
`transmitting` only `steady` or `rampDown`. -/
lemma dma_run_head (s : DmaState) (es : List Bool) :
    ∀ b ∈ (dma_run s es).head?,
      (s = .idle → b = .silent ∨ b = .rampUp) ∧
      (s = .transmitting → b = .steady ∨ b = .rampDown) := by
  cases es with
  | nil => intro b hb; simp [dma_run] at hb
  | cons e es =>
    intro b hb
    have hb' : (dma_irq_step e s).2 = b := by simpa [dma_run] using hb
    subst hb'
    cases e <;> cases s <;> decide

/-- Every run of the scheduler produces a buffer sequence whose adjacent
pairs satisfy `BufferFollows`, i.e. the sequence matches
`silent* (rampUp steady* rampDown silent*)*`: each ramp-up is followed by
steady playback until a single ramp-down, which returns to silence. -/
lemma dma_run_chain (s : DmaState) (es : List Bool) :
    List.Chain' BufferFollows (dma_run s es) := by
  induction es generalizing s with
  | nil => simp [dma_run]
  | cons e es IH =>
    rw [dma_run, List.chain'_cons']
    refine ⟨?_, IH _⟩
    intro y hy
    have hhead := dma_run_head (dma_irq_step e s).1 es y hy
    cases e <;> cases s <;> simp [dma_irq_step, BufferFollows] at hhead ⊢ <;>
      exact hhead

/-- Counting lemma: over any run, the number of ramp-up plays equals the
number of completion events seen in state `idle` with `enable_transmit`
true (rising keying edges), and the number of ramp-down plays equals the
number of events seen in state `transmitting` with `enable_transmit`
false (falling keying edges) — each ramp is played exactly once per edge. -/
lemma dma_run_ramp_counts (s : DmaState) (es : List Bool) :
    ((dma_run s es).count .rampUp =
      (((dma_states s es).zip es).filter
        (fun p => p.1 == DmaState.idle && p.2)).length) ∧
    ((dma_run s es).count .rampDown =
      (((dma_states s es).zip es).filter
        (fun p => p.1 == DmaState.transmitting && !p.2)).length) := by
  induction es generalizing s with
  | nil => simp [dma_run, dma_states]
  | cons e es IH =>
    rw [dma_run, dma_states]
    cases e <;> cases s <;>
      simp [dma_irq_step, List.count_cons, (IH _).1, (IH _).2]

/-- C2: at every buffer-completion event the handler selects the next
buffer as a function of exactly `(dma_state, enable_transmit)` following
the four-case table of `dma_irq_handler`; a ramp-up is selected exactly at
a rising keying edge and a ramp-down exactly at a falling edge; every run
satisfies the adjacency discipline
`silent* (rampUp steady* rampDown silent*)*`; and over any run each ramp
buffer is played exactly once per keying edge (the ramp-up count equals
the number of rising edges, the ramp-down count the number of falling
edges). -/
theorem dma_irq_handler_state_machine :
    dma_irq_step true DmaState.transmitting = (DmaState.transmitting, BufferSel.steady) ∧
    dma_irq_step true DmaState.idle = (DmaState.transmitting, BufferSel.rampUp) ∧
    dma_irq_step false DmaState.idle = (DmaState.idle, BufferSel.silent) ∧
    dma_irq_step false DmaState.transmitting = (DmaState.idle, BufferSel.rampDown) ∧
    (∀ (e : Bool) (s : DmaState),
      ((dma_irq_step e s).2 = BufferSel.rampUp ↔ s = DmaState.idle ∧ e = true) ∧
      ((dma_irq_step e s).2 = BufferSel.rampDown ↔ s = DmaState.transmitting ∧ e = false)) ∧
    (∀ (s : DmaState) (es : List Bool), List.Chain' BufferFollows (dma_run s es)) ∧
    (∀ (s : DmaState) (es : List Bool),
      (dma_run s es).count BufferSel.rampUp =
        (((dma_states s es).zip es).filter
          (fun p => p.1 == DmaState.idle && p.2)).length ∧
      (dma_run s es).count BufferSel.rampDown =
        (((dma_states s es).zip es).filter
          (fun p => p.1 == DmaState.transmitting && !p.2)).length) := by
  refine ⟨rfl, rfl, rfl, rfl, ?_, dma_run_chain, dma_run_ramp_counts⟩
  intro e s
  cases e <;> cases s <;> exact ⟨by decide, by decide⟩

/-! ## The synth parameter setters (synth.h / synth.cpp)

The `synth` class setters.  All setters except `set_mode` are one-line
inline assignments in synth.h that store the value and set
`needs_recalculation`; only `set_mode` (synth.cpp) validates its argument
(`0 <= m <= 5`), printing "Attempted to set invalid mode" and changing
nothing otherwise.  Floating parameters are modelled over `ℚ`, the `int`
fields over `ℤ`.
-/

structure synth_params where
  dither_amplitude : ℚ
  amplitude : ℚ
  hd3_amplitude : ℚ
  hd3_phase_rad : ℚ
  max_words_limit : ℤ
  frequency : ℚ
  mode : ℤ
  needs_recalculation : Bool
deriving Repr, DecidableEq

def set_dither_amplitude (s : synth_params) (a : ℚ) : synth_params :=
  { s with dither_amplitude := a, needs_recalculation := true }

def set_amplitude (s : synth_params) (a : ℚ) : synth_params :=
  { s with amplitude := a, needs_recalculation := true }

def set_hd3_amplitude (s : synth_params) (a : ℚ) : synth_params :=
  { s with hd3_amplitude := a, needs_recalculation := true }

def set_hd3_phase (s : synth_params) (p : ℚ) : synth_params :=
  { s with hd3_phase_rad := p, needs_recalculation := true }

def set_frequency (s : synth_params) (f : ℚ) : synth_params :=
  { s with frequency := f, needs_recalculation := true }

def set_max_words (s : synth_params) (m : ℤ) : synth_params :=
  { s with max_words_limit := m, needs_recalculation := true }

/-- `synth::set_mode` (synth.cpp): the only validating setter.  An `m`
outside `0..5` leaves the object unchanged (the source prints
"Attempted to set invalid mode" on that path). -/
def set_mode (s : synth_params) (m : ℤ) : synth_params :=
  if 0 ≤ m ∧ m ≤ 5 then { s with mode := m, needs_recalculation := true }
  else s

/-- The parameter state established by the `synth` constructor
(synth.cpp), with `hd3_phase_rad` left as a symbolic input since the
source value `-35·π/180` is irrational. -/
def synth_init (first_phase : ℚ) (frequency_a : ℚ) : synth_params :=
  { dither_amplitude := 1
    amplitude := 1
    hd3_amplitude := 9/200
    hd3_phase_rad := first_phase
    max_words_limit := 15000
    frequency := frequency_a
    mode := 5
    needs_recalculation := true }

/-- C8 counterexample: an out-of-documented-range amplitude (5, with the
documented range 0–2) is *not* rejected by `set_amplitude`: the setter
stores it, changing the parameter.  Likewise dither 4 (documented 0–3) is
stored by `set_dither_amplitude`.  Only `set_mode` validates. -/
theorem setters_do_not_validate :
    (set_amplitude (synth_init 0 3550000) 5).amplitude = 5 ∧
    (synth_init 0 3550000).amplitude = 1 ∧
    set_amplitude (synth_init 0 3550000) 5 ≠ synth_init 0 3550000 ∧
    (set_dither_amplitude (synth_init 0 3550000) 4).dither_amplitude = 4 ∧
    (synth_init 0 3550000).dither_amplitude = 1 := by
  refine ⟨rfl, rfl, ?_, rfl, rfl⟩
  intro h
  have := congrArg synth_params.amplitude h
  simp [set_amplitude, synth_init] at this

/-- C8 (amended): only `set_mode` validates its argument — a mode outside
`0..5` is rejected with a diagnostic and the stored parameters are left
completely unchanged, while a valid mode is stored (with the dirty flag
set); the frequency, amplitude and dither setters store *any* value
unconditionally (range validation for those lives in the command layer,
not in the synth setters). -/
theorem set_mode_validates :
    (∀ (s : synth_params) (m : ℤ), ¬(0 ≤ m ∧ m ≤ 5) → set_mode s m = s) ∧
    (∀ (s : synth_params) (m : ℤ), 0 ≤ m → m ≤ 5 →
      set_mode s m = { s with mode := m, needs_recalculation := true }) ∧
    (∀ (s : synth_params) (a : ℚ), (set_amplitude s a).amplitude = a) ∧
    (∀ (s : synth_params) (a : ℚ),
      (set_dither_amplitude s a).dither_amplitude = a) ∧
    (∀ (s : synth_params) (f : ℚ), (set_frequency s f).frequency = f) := by
  refine ⟨?_, ?_, fun _ _ => rfl, fun _ _ => rfl, fun _ _ => rfl⟩
  · intro s m hm
    unfold set_mode
    rw [if_neg hm]
  · intro s m h0 h5
    unfold set_mode
    rw [if_pos ⟨h0, h5⟩]

/-- Witness for `set_mode_validates`: mode 7 is rejected (state unchanged)
and mode 3 is stored. -/
theorem set_mode_validates_witness :
    set_mode (synth_init 0 3550000) 7 = synth_init 0 3550000 ∧
    (set_mode (synth_init 0 3550000) 3).mode = 3 := by
  obtain ⟨hrej, hacc, -, -, -⟩ := set_mode_validates
  constructor
  · exact hrej (synth_init 0 3550000) 7 (by omega)
  · rw [hacc (synth_init 0 3550000) 3 (by omega) (by omega)]

/-! ## `synth::apply_settings` (synth.cpp)

`apply_settings` returns immediately when `needs_recalculation` is false.
Otherwise it stops and unclaims both DMA channels (only when a channel is
actually claimed, signalled by `synth_dma < 1000`; `unclaim_dma` sets the
sentinel 999999), removes the PIO program, and then either installs the
toggle program (mode 0 — note the source never clears
`needs_recalculation` on this path) or installs the serialiser program,
recalculates the buffers (`calculate_buffers` clears the flag) and
re-claims the DMAs (`setup_dma`).

The model records the externally visible actions of one call in order.
Buffer contents are abstracted by a function `mk` of the parameters and
the `rand()` state: `calculate_buffers` consumes dither from the global
`rand()` stream, so recomputing would generally produce different bytes —
which is exactly why "no recalculation" is the property of interest. -/

inductive SynthAction where
  | dmaStop      -- clearing CTRL.EN and aborting both channels
  | dmaUnclaim   -- dma_channel_cleanup/unclaim, sentinel 999999
  | pioRemove    -- remove_pio_program
  | pioAdd       -- add_pio_program (+ program init)
  | calcBuffers  -- calculate_buffers (rewrites the four buffers)
  | dmaSetup     -- setup_dma (re-claims channels, re-arms from the start)
deriving Repr, DecidableEq

structure synth_state where
  params : synth_params
  n_words : ℕ
  n_periods : ℕ
  buffers : ℕ      -- abstract snapshot of the four buffers' contents
  rng : ℕ          -- state of the rand() stream the fill routines consume
  synth_dma : ℕ    -- claimed DMA channel id; 999999 once unclaimed
deriving Repr, DecidableEq

/-- `synth::calculate_buffers` at the state level: recompute
`(n_periods, n_words)` (see `synth_calculate_buffers`), rewrite the
buffers (abstracted as `mk params rng`), consume dither randomness, and
clear `needs_recalculation`. -/
def calculate_buffers_state (mk : synth_params → ℕ → ℕ) (s : synth_state) :
    synth_state :=
  { s with
    n_periods := (synth_calculate_buffers s.params.frequency
      s.params.max_words_limit.toNat).1
    n_words := (synth_calculate_buffers s.params.frequency
      s.params.max_words_limit.toNat).2
    buffers := mk s.params s.rng
    rng := s.rng + 1
    params := { s.params with needs_recalculation := false } }

/-- `synth::apply_settings`: the state after one call together with the
ordered list of actions the call performed. -/
def apply_settings (mk : synth_params → ℕ → ℕ) (s : synth_state) :
    synth_state × List SynthAction :=
  if ¬ s.params.needs_recalculation then (s, [])
  else
    let s1 := if s.synth_dma < 1000 then { s with synth_dma := 999999 } else s
    let acts1 := if s.synth_dma < 1000
      then [SynthAction.dmaStop, SynthAction.dmaUnclaim]
      else ([] : List SynthAction)
    if s.params.mode = 0 then
      (s1, acts1 ++ [SynthAction.pioRemove, SynthAction.pioAdd])
    else
      ({ calculate_buffers_state mk s1 with synth_dma := 0 },
        acts1 ++ [SynthAction.pioRemove, SynthAction.pioAdd,
          SynthAction.calcBuffers, SynthAction.dmaSetup])

/-- On a non-dirty state `apply_settings` returns immediately. -/
lemma apply_settings_of_clean (mk : synth_params → ℕ → ℕ) (s : synth_state)
    (h : s.params.needs_recalculation = false) :
    apply_settings mk s = (s, []) := by
  unfold apply_settings
  rw [if_pos (by simp [h])]

/-- C9: calling `apply_settings` a second time with no intervening
parameter change leaves the state (in particular buffer contents,
`n_words`, `n_periods`) unchanged, performs no buffer recalculation, and
does not re-trigger the DMA stop/unclaim/reclaim sequence; and on a
non-dirty state `apply_settings` is a complete no-op.  (In the buffer
modes 1–5 the second call does nothing at all; in mode 0 the source never
clears `needs_recalculation`, so the second call re-runs the PIO
remove/add — but still none of the claimed effects.) -/
theorem apply_settings_idempotent (mk : synth_params → ℕ → ℕ) (s : synth_state) :
    (apply_settings mk (apply_settings mk s).1).1 = (apply_settings mk s).1 ∧
    SynthAction.calcBuffers ∉ (apply_settings mk (apply_settings mk s).1).2 ∧
    SynthAction.dmaStop ∉ (apply_settings mk (apply_settings mk s).1).2 ∧
    SynthAction.dmaUnclaim ∉ (apply_settings mk (apply_settings mk s).1).2 ∧
    SynthAction.dmaSetup ∉ (apply_settings mk (apply_settings mk s).1).2 ∧
    (s.params.needs_recalculation = false → apply_settings mk s = (s, [])) := by
  by_cases hd : s.params.needs_recalculation = true
  · by_cases hm : s.params.mode = 0
    · by_cases hdl : s.synth_dma < 1000
      · have hfst : (apply_settings mk s).1 = { s with synth_dma := 999999 } := by
          simp [apply_settings, hd, hm, hdl]
        rw [hfst]
        have hsnd : apply_settings mk { s with synth_dma := 999999 } =
            ({ s with synth_dma := 999999 },
              [SynthAction.pioRemove, SynthAction.pioAdd]) := by
          simp [apply_settings, hd, hm]
        rw [hsnd]
        refine ⟨rfl, by simp, by simp, by simp, by simp, ?_⟩
        intro hcon
        rw [hd] at hcon
        cases hcon
      · have hfst : (apply_settings mk s).1 = s := by
          simp [apply_settings, hd, hm, hdl]
        rw [hfst]
        have hsnd : apply_settings mk s =
            (s, [SynthAction.pioRemove, SynthAction.pioAdd]) := by
          simp [apply_settings, hd, hm, hdl]
        rw [hsnd]
        refine ⟨rfl, by simp, by simp, by simp, by simp, ?_⟩
        intro hcon
        rw [hd] at hcon
        cases hcon
    · have hclean : (apply_settings mk s).1.params.needs_recalculation = false := by
        by_cases hdl : s.synth_dma < 1000 <;>
          simp [apply_settings, hd, hm, hdl, calculate_buffers_state]
      rw [apply_settings_of_clean mk _ hclean]
      refine ⟨rfl, by simp, by simp, by simp, by simp, ?_⟩
      intro hcon
      rw [hd] at hcon
      cases hcon
  · have h1 : apply_settings mk s = (s, []) :=
      apply_settings_of_clean mk s (by simpa using hd)
    rw [h1]
    rw [h1]
    exact ⟨rfl, by simp, by simp, by simp, by simp, fun _ => rfl⟩

/-- Witness for `apply_settings_idempotent`: on a concrete non-dirty
state, `apply_settings` is a no-op. -/
theorem apply_settings_idempotent_witness :
    apply_settings (fun _ n => n)
      ⟨{ synth_init 0 3550000 with needs_recalculation := false },
        15000, 4242, 0, 0, 0⟩ =
      (⟨{ synth_init 0 3550000 with needs_recalculation := false },
        15000, 4242, 0, 0, 0⟩, []) := by
  exact (apply_settings_idempotent (fun _ n => n)
    ⟨{ synth_init 0 3550000 with needs_recalculation := false },
      15000, 4242, 0, 0, 0⟩).2.2.2.2.2 rfl

/-! ## The quantizers (synth.cpp)

The per-slot decision logic of the three fill routines, parameterised by
the
`(sample, dither)` input streams (in the source these come from
`amplitude*sin(...) + hd3_amplitude*sin(3*...)`, the taper window and
`rand()`; every theorem below holds for arbitrary streams).

`calculate_buffers` dispatches: mode 1 → `fill_synth_buffer_compare`,
modes 2 and 4 → `fill_synth_buffer_sigma_delta`, modes 3 and 5 →
`fill_synth_buffer_sigma_delta_3s`.
-/

/-- One slot of the binary (1-bit) sigma-delta quantizer of
`fill_synth_buffer_sigma_delta`: `acc = sample + delta_dly`; output `+1`
(`true`, bit pattern 01) if `acc + dither > 0`, else `-1` (`false`,
bit pattern 10); the carried error is `acc - out`. -/
def sd_step (input : ℚ × ℚ) (delta_dly : ℚ) : Bool × ℚ :=
  if input.1 + delta_dly + input.2 > 0 then
    (true, input.1 + delta_dly - 1)
  else
    (false, input.1 + delta_dly + 1)

/-- The symbol stream of one binary sigma-delta run with initial carried
error `delta`. -/
def sd_outs (delta : ℚ) : List (ℚ × ℚ) → List Bool
  | [] => []
  | x :: xs => (sd_step x delta).1 :: sd_outs (sd_step x delta).2 xs

/-- The steady-buffer symbol stream of `fill_synth_buffer_sigma_delta`
(initial accumulator state 0; the ramp-up/ramp-down streams run the same
recurrence on tapered samples with their own accumulators). -/
def fill_synth_buffer_sigma_delta (ins : List (ℚ × ℚ)) : List Bool :=
  sd_outs 0 ins

/-- The symbol stream of `fill_synth_buffer_compare` (mode 1): stateless
sign comparison `sample + dither > 0` per slot. -/
def fill_synth_buffer_compare (ins : List (ℚ × ℚ)) : List Bool :=
  ins.map (fun x => decide (x.1 + x.2 > 0))

/-- Packing of the per-slot 2-bit patterns into a word, little-endian:
slot `j` occupies bits `2j` and `2j+1`, `+1` is `1 << 2j` and `-1` is
`1 << (2j+1)` (the source ORs disjoint bit groups, which is addition). -/
def pack_slots : List Bool → ℕ
  | [] => 0
  | b :: rest => (if b then 1 else 2) + 4 * pack_slots rest

/-- The 2-bit group of word `w` at slot `j`. -/
def slot (w j : ℕ) : ℕ := w / 4 ^ j % 4

lemma sd_outs_length (delta : ℚ) (ins : List (ℚ × ℚ)) :
    (sd_outs delta ins).length = ins.length := by
  induction ins generalizing delta with
  | nil => rfl
  | cons x xs IH => simp [sd_outs, IH]

lemma pack_slot (l : List Bool) :
    ∀ j, j < l.length → slot (pack_slots l) j = (if l.getD j false then 1 else 2) := by
  induction l with
  | nil => intro j hj; simp at hj
  | cons b rest IH =>
    intro j hj
    cases j with
    | zero =>
      show (((if b then 1 else 2) + 4 * pack_slots rest) / 4 ^ 0) % 4 = _
      rw [pow_zero, Nat.div_one, Nat.add_mul_mod_self_left]
      cases b <;> rfl
    | succ j =>
      show (((if b then 1 else 2) + 4 * pack_slots rest) / 4 ^ (j + 1)) % 4 = _
      rw [pow_succ, Nat.mul_comm (4 ^ j) 4, ← Nat.div_div_eq_div_mul,
        Nat.add_mul_div_left _ _ (by norm_num : 0 < 4)]
      have hb : (if b then 1 else 2) / 4 = 0 := by cases b <;> rfl
      rw [hb, Nat.zero_add]
      simp only [List.length_cons] at hj
      have := IH j (by omega)
      simpa [slot] using this

/-- C10: in comparator mode (1) and the binary sigma-delta modes (2, 4),
every 2-bit slot of a packed steady-buffer word has exactly one bit set —
each slot holds the pattern `01` (value 1, `+`) or `10` (value 2, `-`),
never `00` or `11` — so the two differential pins are always driven to
opposite levels. -/
theorem binary_modes_one_bit_per_slot :
    (∀ (delta : ℚ) (ins : List (ℚ × ℚ)) (j : ℕ), j < ins.length →
      slot (pack_slots (sd_outs delta ins)) j = 1 ∨
      slot (pack_slots (sd_outs delta ins)) j = 2) ∧
    (∀ (ins : List (ℚ × ℚ)) (j : ℕ), j < ins.length →
      slot (pack_slots (fill_synth_buffer_sigma_delta ins)) j = 1 ∨
      slot (pack_slots (fill_synth_buffer_sigma_delta ins)) j = 2) ∧
    (∀ (ins : List (ℚ × ℚ)) (j : ℕ), j < ins.length →
      slot (pack_slots (fill_synth_buffer_compare ins)) j = 1 ∨
      slot (pack_slots (fill_synth_buffer_compare ins)) j = 2) := by
  have hgen : ∀ (l : List Bool) (j : ℕ), j < l.length →
      slot (pack_slots l) j = 1 ∨ slot (pack_slots l) j = 2 := by
    intro l j hj
    rw [pack_slot l j hj]
    cases l.getD j false <;> simp
  refine ⟨?_, ?_, ?_⟩
  · intro delta ins j hj
    exact hgen _ j (by rw [sd_outs_length]; exact hj)
  · intro ins j hj
    exact hgen _ j (by rw [fill_synth_buffer_sigma_delta, sd_outs_length]; exact hj)
  · intro ins j hj
    exact hgen _ j (by rw [fill_synth_buffer_compare, List.length_map]; exact hj)

/-- Witness for `binary_modes_one_bit_per_slot` at a concrete input:
one slot with `sample + dither > 0` packs to value 1 (bit 0 only). -/
theorem binary_modes_one_bit_per_slot_witness :
    slot (pack_slots (sd_outs 0 [(1, 0)])) 0 = 1 ∨
    slot (pack_slots (sd_outs 0 [(1, 0)])) 0 = 2 :=
  binary_modes_one_bit_per_slot.1 0 [(1, 0)] 0 (by norm_num)

/-! ### The tri-level quantizer (`fill_synth_buffer_sigma_delta_3s`) -/

inductive TriSym where
  | plus      -- +1: `word |= 1 << 2j`
  | minus     -- -1: `word |= 1 << (2j+1)`
  | zeroLow   -- 0 encoded with both bits low (nothing ORed in)
  | zeroHigh  -- 0 encoded with both bits high (`word |= 3 << 2j`)
deriving Repr, DecidableEq

/-- One slot of the tri-level quantizer, for one stream.  State is
`(delta_dly, last_equal)` (the source's per-stream carried error and
parity flag).  `acc = sample + delta_dly`; output `+1` if
`acc + dither > 1/3`, `0` if `acc + dither > -1/3` (encoded high and
flag set to 1 when `last_equal == 0`, else encoded low and flag set
to 0), `-1` otherwise; carried error `acc - out`. -/
def sd3_step (input : ℚ × ℚ) (st : ℚ × ℤ) : TriSym × (ℚ × ℤ) :=
  if input.1 + st.1 + input.2 > 1/3 then
    (.plus, (input.1 + st.1 - 1, st.2))
  else if input.1 + st.1 + input.2 > -(1/3) then
    (if st.2 = 0 then (.zeroHigh, (input.1 + st.1, 1))
     else (.zeroLow, (input.1 + st.1, 0)))
  else
    (.minus, (input.1 + st.1 + 1, st.2))

/-- The symbol stream of one tri-level sigma-delta run. -/
def sd3_outs (st : ℚ × ℤ) : List (ℚ × ℚ) → List TriSym
  | [] => []
  | x :: xs => (sd3_step x st).1 :: sd3_outs (sd3_step x st).2 xs

/-- Initial per-stream state of `fill_synth_buffer_sigma_delta_3s`:
`delta_dly = 0`, `last_equal = 1`. -/
def sd3_init : ℚ × ℤ := (0, 1)

/-- The single loop of `fill_synth_buffer_sigma_delta_3s`: one pass over
the slots computing the steady, ramp-up and ramp-down streams together,
each with its own `(delta_dly, last_equal)` state, from per-slot inputs
`(sample, sample_up, sample_down, dither)` (the dither value is shared
across the three streams, as in the source). -/
def sd3_loop (st st_up st_down : ℚ × ℤ) :
    List (ℚ × ℚ × ℚ × ℚ) → List TriSym × List TriSym × List TriSym
  | [] => ([], [], [])
  | x :: xs =>
    ((sd3_step (x.1, x.2.2.2) st).1 ::
        (sd3_loop (sd3_step (x.1, x.2.2.2) st).2 (sd3_step (x.2.1, x.2.2.2) st_up).2
          (sd3_step (x.2.2.1, x.2.2.2) st_down).2 xs).1,
      (sd3_step (x.2.1, x.2.2.2) st_up).1 ::
        (sd3_loop (sd3_step (x.1, x.2.2.2) st).2 (sd3_step (x.2.1, x.2.2.2) st_up).2
          (sd3_step (x.2.2.1, x.2.2.2) st_down).2 xs).2.1,
      (sd3_step (x.2.2.1, x.2.2.2) st_down).1 ::
        (sd3_loop (sd3_step (x.1, x.2.2.2) st).2 (sd3_step (x.2.1, x.2.2.2) st_up).2
          (sd3_step (x.2.2.1, x.2.2.2) st_down).2 xs).2.2)

/-- `fill_synth_buffer_sigma_delta_3s`: the three symbol streams. -/
def fill_synth_buffer_sigma_delta_3s (ins : List (ℚ × ℚ × ℚ × ℚ)) :
    List TriSym × List TriSym × List TriSym :=
  sd3_loop sd3_init sd3_init sd3_init ins

/-- The three per-stream states never interact: the one-pass loop equals
three independent runs of `sd3_outs` on the projected input streams. -/
lemma sd3_loop_eq_outs (ins : List (ℚ × ℚ × ℚ × ℚ)) :
    ∀ (st st_up st_down : ℚ × ℤ),
      sd3_loop st st_up st_down ins =
        (sd3_outs st (ins.map (fun x => (x.1, x.2.2.2))),
          sd3_outs st_up (ins.map (fun x => (x.2.1, x.2.2.2))),
          sd3_outs st_down (ins.map (fun x => (x.2.2.1, x.2.2.2)))) := by
  induction ins with
  | nil => intro st st_up st_down; rfl
  | cons x xs IH =>
    intro st st_up st_down
    simp [sd3_loop, sd3_outs, IH]

def isZero : TriSym → Bool
  | .zeroLow => true
  | .zeroHigh => true
  | _ => false

/-- The zero encoding the quantizer will use next, as a function of the
parity flag: `last_equal = 0` means the next zero is encoded high. -/
def zeroFor (f : ℤ) : TriSym := if f = 0 then .zeroHigh else .zeroLow

/-- Per-step flag behaviour: on a zero-level output, the emitted encoding
is the one selected by the current flag and the flag flips; on a nonzero
output the flag is unchanged. -/
lemma sd3_step_flag (x : ℚ × ℚ) (st : ℚ × ℤ) :
    (isZero (sd3_step x st).1 = true →
      (sd3_step x st).1 = zeroFor st.2 ∧
      zeroFor (sd3_step x st).2.2 ≠ zeroFor st.2 ∧
      (sd3_step x st).2.2 ≠ st.2) ∧
    (isZero (sd3_step x st).1 = false → (sd3_step x st).2.2 = st.2) := by
  unfold sd3_step zeroFor isZero
  split_ifs with h1 h2 h3 <;> simp_all
  omega

/-- Alternation invariant: the subsequence of zero-level encodings of a
run strictly alternates, and its first element is the encoding selected
by the initial flag. -/
lemma sd3_outs_zero_alternation (ins : List (ℚ × ℚ)) :
    ∀ (st : ℚ × ℤ),
      List.Chain' (fun x y => x ≠ y) ((sd3_outs st ins).filter isZero) ∧
      (∀ h ∈ ((sd3_outs st ins).filter isZero).head?, h = zeroFor st.2) := by
  induction ins with
  | nil => intro st; simp [sd3_outs]
  | cons x xs IH =>
    intro st
    have IH' := IH (sd3_step x st).2
    by_cases hz : isZero (sd3_step x st).1
    · obtain ⟨ho, hne, -⟩ := (sd3_step_flag x st).1 hz
      have hfil : (sd3_outs st (x :: xs)).filter isZero =
          (sd3_step x st).1 :: (sd3_outs (sd3_step x st).2 xs).filter isZero := by
        rw [sd3_outs, List.filter_cons_of_pos hz]
      rw [hfil]
      constructor
      · rw [List.chain'_cons']
        refine ⟨?_, IH'.1⟩
        intro y hy
        have hy' : y = zeroFor (sd3_step x st).2.2 := IH'.2 y hy
        rw [ho, hy']
        exact fun hcon => hne hcon.symm
      · intro h hh
        simp only [List.head?_cons, Option.mem_def, Option.some.injEq] at hh
        rw [← hh, ho]
    · have hfil : (sd3_outs st (x :: xs)).filter isZero =
          (sd3_outs (sd3_step x st).2 xs).filter isZero := by
        rw [sd3_outs, List.filter_cons_of_neg (by simpa using hz)]
      rw [hfil]
      have hflag : (sd3_step x st).2.2 = st.2 :=
        (sd3_step_flag x st).2 (by simpa using hz)
      refine ⟨IH'.1, ?_⟩
      intro h hh
      have := IH'.2 h hh
      rw [this, hflag]

/-- In an alternating list of zero-level encodings, the counts of the two
encodings differ by at most one. -/
lemma alt_counts : ∀ (n : ℕ) (L : List TriSym), L.length ≤ n →
    (∀ x ∈ L, isZero x = true) →
    List.Chain' (fun x y => x ≠ y) L →
    L.count TriSym.zeroLow ≤ L.count TriSym.zeroHigh + 1 ∧
    L.count TriSym.zeroHigh ≤ L.count TriSym.zeroLow + 1 := by
  intro n
  induction n with
  | zero =>
    intro L hL _ _
    have : L = [] := List.eq_nil_of_length_eq_zero (by omega)
    subst this
    simp
  | succ n IH =>
    intro L hL hall hchain
    match L with
    | [] => simp
    | [a] =>
      have := hall a (by simp)
      cases a <;> simp_all [List.count_cons]
    | a :: b :: t =>
      have hab : a ≠ b := (List.chain'_cons.mp hchain).1
      have hchain' : List.Chain' (fun x y => x ≠ y) t :=
        ((List.chain'_cons.mp hchain).2).tail
      have ht := IH t (by simp only [List.length_cons] at hL; omega)
        (fun x hx => hall x (by simp [hx])) hchain'
      have ha := hall a (by simp)
      have hb := hall b (by simp)
      have hor : (a = TriSym.zeroLow ∧ b = TriSym.zeroHigh) ∨
          (a = TriSym.zeroHigh ∧ b = TriSym.zeroLow) := by
        cases a <;> cases b <;> simp_all [isZero]
      obtain ⟨ha', hb'⟩ | ⟨ha', hb'⟩ := hor <;> subst ha' <;> subst hb' <;>
        simp [List.count_cons] <;> omega

/-- Over any contiguous run of zero-level outputs of a stream, the two
zero encodings occur equally often up to one. -/
lemma sd3_outs_zero_run_balanced (st : ℚ × ℤ) (ins : List (ℚ × ℚ)) (i n : ℕ)
    (hall : ∀ x ∈ ((sd3_outs st ins).drop i).take n, isZero x = true) :
    (((sd3_outs st ins).drop i).take n).count TriSym.zeroLow ≤
      (((sd3_outs st ins).drop i).take n).count TriSym.zeroHigh + 1 ∧
    (((sd3_outs st ins).drop i).take n).count TriSym.zeroHigh ≤
      (((sd3_outs st ins).drop i).take n).count TriSym.zeroLow + 1 := by
  set L := ((sd3_outs st ins).drop i).take n with hL
  have hsplit : sd3_outs st ins =
      (sd3_outs st ins).take i ++ (L ++ ((sd3_outs st ins).drop i).drop n) := by
    rw [hL, List.take_append_drop, List.take_append_drop]
  have hch := (sd3_outs_zero_alternation ins st).1
  rw [hsplit, List.filter_append, List.filter_append] at hch
  have hLfil : L.filter isZero = L := List.filter_eq_self.mpr hall
  rw [hLfil] at hch
  have hchL : List.Chain' (fun x y => x ≠ y) L :=
    (List.chain'_append.mp ((List.chain'_append.mp hch).2.1)).1
  exact alt_counts L.length L le_rfl hall hchL

/-- A stream is zero-duty balanced: its zero-level encodings strictly
alternate (as a subsequence), and over any contiguous all-zero run the two
encodings' counts differ by at most 1. -/
def ZeroBalanced (L : List TriSym) : Prop :=
  List.Chain' (fun x y => x ≠ y) (L.filter isZero) ∧
  ∀ i n, (∀ x ∈ (L.drop i).take n, isZero x = true) →
    ((L.drop i).take n).count TriSym.zeroLow ≤
      ((L.drop i).take n).count TriSym.zeroHigh + 1 ∧
    ((L.drop i).take n).count TriSym.zeroHigh ≤
      ((L.drop i).take n).count TriSym.zeroLow + 1

/-- C7: in the trinary modes each of the three streams keeps its own
parity flag, which flips exactly on the zero-level outputs (and only on
them); consequently in each of the three streams produced by
`fill_synth_buffer_sigma_delta_3s` the consecutive zero-level outputs
strictly alternate between the `00` and `11` encodings, and over any run
of consecutive zero-level outputs the two encodings' counts differ by at
most 1. -/
theorem sigma_delta_3s_zero_duty_balance :
    (∀ (x : ℚ × ℚ) (st : ℚ × ℤ),
      (isZero (sd3_step x st).1 = true → (sd3_step x st).2.2 ≠ st.2) ∧
      (isZero (sd3_step x st).1 = false → (sd3_step x st).2.2 = st.2)) ∧
    (∀ ins : List (ℚ × ℚ × ℚ × ℚ),
      ZeroBalanced (fill_synth_buffer_sigma_delta_3s ins).1 ∧
      ZeroBalanced (fill_synth_buffer_sigma_delta_3s ins).2.1 ∧
      ZeroBalanced (fill_synth_buffer_sigma_delta_3s ins).2.2) := by
  constructor
  · intro x st
    exact ⟨fun h => ((sd3_step_flag x st).1 h).2.2, (sd3_step_flag x st).2⟩
  · intro ins
    have hzb : ∀ (st : ℚ × ℤ) (l : List (ℚ × ℚ)), ZeroBalanced (sd3_outs st l) :=
      fun st l => ⟨(sd3_outs_zero_alternation l st).1,
        fun i n hall => sd3_outs_zero_run_balanced st l i n hall⟩
    unfold fill_synth_buffer_sigma_delta_3s
    rw [sd3_loop_eq_outs ins sd3_init sd3_init sd3_init]
    exact ⟨hzb _ _, hzb _ _, hzb _ _⟩

/-- Witness for `sigma_delta_3s_zero_duty_balance` at a concrete input:
a single slot with `sample = dither = 0` produces one zero-level output
(encoded low, since the initial flag is 1), and the counts over that run
differ by at most 1. -/
theorem sigma_delta_3s_zero_duty_balance_witness :
    ((((fill_synth_buffer_sigma_delta_3s [(0, 0, 0, 0)]).1.drop 0).take 1).count
      TriSym.zeroLow ≤
      (((fill_synth_buffer_sigma_delta_3s [(0, 0, 0, 0)]).1.drop 0).take 1).count
        TriSym.zeroHigh + 1) ∧
    (sd3_step (0, 0) sd3_init).2.2 ≠ sd3_init.2 := by
  constructor
  · exact ((sigma_delta_3s_zero_duty_balance.2 [(0, 0, 0, 0)]).1.2 0 1
      (by with_unfolding_all decide)).1
  · exact (sigma_delta_3s_zero_duty_balance.1 (0, 0) sd3_init).1
      (by with_unfolding_all decide)
